import Mathlib

/-!
# Migration of the "bits" resource state from schema v2 to v3

A shallow embedding of `cloudfoundry/migrate_bits.go` and of the library
functions it calls, followed by theorems about the embedded functions.

Conventions of the embedding.

* A Go `string` is a sequence of bytes; it is embedded as `Str`, a list of
  characters, each character standing for one byte.  All separators the code
  looks for (`/`, `.`, `:`, `#`, `?`, `@`, `%`) are ASCII.
* `path/filepath` is embedded for a Unix target (separator `/`, no volume
  names), `net/url` as of Go 1.12, `strconv.ParseInt` for base 0 and 64 bits.
* The network, the git transport and the filesystem are not embedded: their
  results are read from a `World` value and every call made to them is
  recorded in a trace.
-/

namespace MigrateBits

/-- A Go string: a sequence of bytes. -/
abbrev Str := List Char

/-! ## package strings -/

namespace strings

/-- Go `strings.HasPrefix`. -/
def HasPrefix (s pre : Str) : Bool := pre.isPrefixOf s

/-- Go `strings.HasSuffix`. -/
def HasSuffix (s suf : Str) : Bool := suf.isSuffixOf s

/-- Go `strings.TrimPrefix`: `s` without the leading `pre`, or `s` itself. -/
def TrimPrefix (s pre : Str) : Str :=
  if HasPrefix s pre then s.drop pre.length else s

/-- Go `strings.TrimSuffix`: `s` without the trailing `suf`, or `s` itself. -/
def TrimSuffix (s suf : Str) : Str :=
  if HasSuffix s suf then s.take (s.length - suf.length) else s

end strings

/-! ## package path/filepath (Unix) -/

namespace filepath

/-- The loop of Go `filepath.Ext`, run over the reversed path: `acc` is the
part of the path already scanned (behind the current byte). -/
def extScan : Str → Str → Str
  | [], _ => []
  | c :: r, acc =>
    if c = '/' then []
    else if c = '.' then c :: acc
    else extScan r (c :: acc)

/-- Go `filepath.Ext`: the suffix beginning at the final dot of the final
element of the path, empty if there is no dot. -/
def Ext (path : Str) : Str := extScan path.reverse []

/-- Go `filepath.Base`: the last element of the path, trailing separators
removed first; `.` for the empty path, `/` for a path of separators only. -/
def Base (path : Str) : Str :=
  if path = [] then ['.']
  else
    let stripped := path.reverse.dropWhile (fun c => c = '/')
    let last := (stripped.takeWhile (fun c => c ≠ '/')).reverse
    if last = [] then ['/'] else last

/-- The elements of a path: the pieces between separators (empty pieces
included). -/
def splitSlash : Str → List Str
  | [] => [[]]
  | c :: t =>
    if c = '/' then [] :: splitSlash t
    else
      match splitSlash t with
      | [] => [[c]]
      | s :: ss => (c :: s) :: ss

/-- One element of the path processed by Go `filepath.Clean`.  `st` holds the
elements written so far, last one first.  Empty and `.` elements are
dropped; `..` removes the element before it when that is a real element, is
dropped at the root, and is kept otherwise. -/
def cleanStep (rooted : Bool) (st : List Str) (seg : Str) : List Str :=
  if seg = [] ∨ seg = ['.'] then st
  else if seg = ['.', '.'] then
    match st with
    | [] => if rooted then [] else [seg]
    | top :: rest => if top = ['.', '.'] then seg :: st else rest
  else seg :: st

/-- The elements written with one separator between them (Go
`strings.Join(elems, "/")`). -/
def joinSlash : List Str → Str
  | [] => []
  | [a] => a
  | a :: b :: l => a ++ '/' :: joinSlash (b :: l)

/-- Go `filepath.Clean`, by its documented rules: multiple separators become
one, `.` elements go, every inner `..` goes with the element before it, `..`
elements that begin a rooted path go; the empty result is `.`. -/
def Clean (path : Str) : Str :=
  if path = [] then ['.']
  else
    let rooted : Bool := path.head? = some '/'
    let st := (splitSlash path).foldl (cleanStep rooted) []
    let body := joinSlash st.reverse
    if rooted then '/' :: body
    else if body = [] then ['.'] else body

/-- Go `filepath.Dir`: all but the last element of the path, cleaned. -/
def Dir (path : Str) : Str :=
  Clean (path.reverse.dropWhile (fun c => c ≠ '/')).reverse

/-- Go `filepath.Join` for two elements: empty leading elements are skipped,
the rest is joined with the separator and cleaned. -/
def Join (a b : Str) : Str :=
  if a ≠ [] then Clean (a ++ '/' :: b)
  else if b ≠ [] then Clean b
  else []

/-- Go `filepath.FromSlash`: on Unix the separator is the slash. -/
def FromSlash (path : Str) : Str := path

end filepath

/-! ## package net/url: the URL value -/

namespace url

/-- Go `url.Userinfo`. -/
structure Userinfo where
  username : Str
  password : Str
  passwordSet : Bool
  deriving DecidableEq, Repr

/-- Go `url.URL` (Go 1.12). `User = none` is the nil pointer. -/
structure URL where
  Scheme : Str := []
  Opaque : Str := []
  User : Option Userinfo := none
  Host : Str := []
  Path : Str := []
  RawPath : Str := []
  ForceQuery : Bool := false
  RawQuery : Str := []
  Fragment : Str := []
  deriving DecidableEq, Repr

/-- Go `url.UserPassword`. -/
def UserPassword (username password : Str) : Userinfo :=
  { username := username, password := password, passwordSet := true }

/-- Go `url.User`. -/
def User (username : Str) : Userinfo :=
  { username := username, password := [], passwordSet := false }

end url

/-! ## package net/url: parsing and printing -/

namespace url

/-- Go `url.encoding`: the part of a URL a string is escaped for. -/
inductive Encoding
  | encodePath
  | encodePathSegment
  | encodeHost
  | encodeZone
  | encodeUserPassword
  | encodeQueryComponent
  | encodeFragment
  deriving DecidableEq, Repr

/-- Go `ishex`. -/
def ishex (c : Char) : Bool :=
  c.isDigit || ('a' ≤ c && c ≤ 'f') || ('A' ≤ c && c ≤ 'F')

/-- Go `unhex`. -/
def unhex (c : Char) : Nat :=
  if c.isDigit then c.toNat - '0'.toNat
  else if 'a' ≤ c ∧ c ≤ 'f' then c.toNat - 'a'.toNat + 10
  else if 'A' ≤ c ∧ c ≤ 'F' then c.toNat - 'A'.toNat + 10
  else 0

/-- One digit of Go's table `upperhex`. -/
def upperhex (n : Nat) : Char :=
  "0123456789ABCDEF".toList.getD n '0'

/-- Go `shouldEscape`: whether the byte is escaped when it appears in the
given part of a URL. -/
def shouldEscape (c : Char) (mode : Encoding) : Bool :=
  if c.isAlphanum then false
  else if (mode = .encodeHost ∨ mode = .encodeZone) ∧
      c ∈ ['!', '$', '&', '\'', '(', ')', '*', '+', ',', ';', '=', ':', '[', ']', '<', '>', '"']
    then false
  else if c ∈ ['-', '_', '.', '~'] then false
  else if c ∈ ['$', '&', '+', ',', '/', ':', ';', '=', '?', '@'] then
    match mode with
    | .encodePath => c = '?'
    | .encodePathSegment => c = '/' ∨ c = ';' ∨ c = ',' ∨ c = '?'
    | .encodeUserPassword => c = '@' ∨ c = '/' ∨ c = '?' ∨ c = ':'
    | .encodeQueryComponent => true
    | .encodeFragment => false
    | _ => true
  else if mode = .encodeFragment ∧ c ∈ ['!', '(', ')', '*'] then false
  else true

/-- Go `unescape`: percent-decoding, with the checks of the host and zone
modes.  The first malformed place, read from the left, is the error. -/
def unescape (mode : Encoding) : Str → Except Str Str
  | [] => .ok []
  | c :: t =>
    if c = '%' then
      match t with
      | a :: b :: t' =>
        if ¬ (ishex a ∧ ishex b) then .error "invalid URL escape".toList
        else if mode = .encodeHost ∧ unhex a < 8 ∧ ¬ (a = '2' ∧ b = '5') then
          .error "invalid URL escape".toList
        else if mode = .encodeZone ∧ ¬ (a = '2' ∧ b = '5') ∧
            Char.ofNat (unhex a * 16 + unhex b) ≠ ' ' ∧
            shouldEscape (Char.ofNat (unhex a * 16 + unhex b)) .encodeHost then
          .error "invalid URL escape".toList
        else
          match unescape mode t' with
          | .ok r => .ok (Char.ofNat (unhex a * 16 + unhex b) :: r)
          | .error e => .error e
      | _ => .error "invalid URL escape".toList
    else if (mode = .encodeHost ∨ mode = .encodeZone) ∧ c.toNat < 128 ∧
        shouldEscape c .encodeHost then
      .error "invalid character in host name".toList
    else
      match unescape mode t with
      | .ok r => .ok ((if c = '+' ∧ mode = .encodeQueryComponent then ' ' else c) :: r)
      | .error e => .error e

/-- Go `escape`: every byte that `shouldEscape` is replaced by `%XX`, a space
in a query component by `+`. -/
def escape (s : Str) (mode : Encoding) : Str :=
  s.flatMap fun c =>
    if shouldEscape c mode then
      if c = ' ' ∧ mode = .encodeQueryComponent then ['+']
      else ['%', upperhex (c.toNat / 16 % 16), upperhex (c.toNat % 16)]
    else [c]

/-- Go `split` for a one-byte separator: the string is cut at the first
occurrence of `c`, which is dropped when `cutc` is set. -/
def split (s : Str) (c : Char) (cutc : Bool) : Str × Str :=
  match s.span (fun d => d ≠ c) with
  | (_, []) => (s, [])
  | (a, d :: b) => if cutc then (a, b) else (a, d :: b)

/-- The string cut at the last occurrence of `c` (Go `strings.LastIndex`):
what stands before it and what stands after it. -/
def cutLast (s : Str) (c : Char) : Option (Str × Str) :=
  match s.reverse.span (fun d => d ≠ c) with
  | (_, []) => none
  | (a, _ :: b) => some (b.reverse, a.reverse)

/-- Go `strings.Index`: the position of the first occurrence of `pat`. -/
def index (pat : Str) : Str → Option Nat
  | [] => if pat = [] then some 0 else none
  | c :: t =>
    if pat.isPrefixOf (c :: t) then some 0
    else (index pat t).map (fun i => i + 1)

/-- Go `stringContainsCTLByte`. -/
def stringContainsCTLByte (s : Str) : Bool :=
  s.any fun c => c.toNat < 32 || c.toNat = 127

/-- The loop of Go `getscheme`; `i` is the index of the next byte. -/
def getschemeLoop (rawurl : Str) : Nat → Str → Except Str (Str × Str)
  | _, [] => .ok ([], rawurl)
  | i, c :: t =>
    if c.isAlpha then getschemeLoop rawurl (i + 1) t
    else if c.isDigit ∨ c = '+' ∨ c = '-' ∨ c = '.' then
      if i = 0 then .ok ([], rawurl) else getschemeLoop rawurl (i + 1) t
    else if c = ':' then
      if i = 0 then .error "missing protocol scheme".toList
      else .ok (rawurl.take i, t)
    else .ok ([], rawurl)

/-- Go `getscheme`: the scheme before the first colon and the rest, or no
scheme. -/
def getscheme (rawurl : Str) : Except Str (Str × Str) :=
  getschemeLoop rawurl 0 rawurl

/-- Go `validOptionalPort`. -/
def validOptionalPort (port : Str) : Bool :=
  match port with
  | [] => true
  | c :: t => c = ':' && t.all Char.isDigit

/-- Go `validUserinfo`. -/
def validUserinfo (s : Str) : Bool :=
  s.all fun r =>
    r.isAlphanum ||
      r ∈ ['-', '.', '_', ':', '~', '!', '$', '&', '\'', '(', ')', '*', '+', ',', ';', '=', '%', '@']

/-- Go `parseHost`. -/
def parseHost (host : Str) : Except Str Str :=
  if strings.HasPrefix host ['['] then
    match cutLast host ']' with
    | none => .error "missing ']' in host".toList
    | some (before, colonPort) =>
      if ¬ validOptionalPort colonPort then .error "invalid port after host".toList
      else
        match index "%25".toList before with
        | some zone =>
          match unescape .encodeHost (host.take zone) with
          | .error e => .error e
          | .ok host1 =>
            match unescape .encodeZone ((host.take before.length).drop zone) with
            | .error e => .error e
            | .ok host2 =>
              match unescape .encodeHost (host.drop before.length) with
              | .error e => .error e
              | .ok host3 => .ok (host1 ++ host2 ++ host3)
        | none => unescape .encodeHost host
  else
    match cutLast host ':' with
    | some (_, port) =>
      if ¬ validOptionalPort (':' :: port) then .error "invalid port after host".toList
      else unescape .encodeHost host
    | none => unescape .encodeHost host

/-- Go `parseAuthority`: the optional `userinfo@` and the host. -/
def parseAuthority (authority : Str) : Except Str (Option Userinfo × Str) :=
  match cutLast authority '@' with
  | none =>
    match parseHost authority with
    | .error e => .error e
    | .ok host => .ok (none, host)
  | some (userinfo, hostpart) =>
    match parseHost hostpart with
    | .error e => .error e
    | .ok host =>
      if ¬ validUserinfo userinfo then .error "net/url: invalid userinfo".toList
      else if ¬ userinfo.contains ':' then
        match unescape .encodeUserPassword userinfo with
        | .error e => .error e
        | .ok name => .ok (some (User name), host)
      else
        match unescape .encodeUserPassword (split userinfo ':' true).1 with
        | .error e => .error e
        | .ok username =>
          match unescape .encodeUserPassword (split userinfo ':' true).2 with
          | .error e => .error e
          | .ok password => .ok (some (UserPassword username password), host)

/-- Go `(*URL).setPath`: `Path` is the decoded form, `RawPath` is kept only
when the default encoding of `Path` differs from the text. -/
def setPath (u : URL) (p : Str) : Except Str URL :=
  match unescape .encodePath p with
  | .error e => .error e
  | .ok path =>
    .ok { u with Path := path, RawPath := if p = escape path .encodePath then [] else p }

/-- ASCII `strings.ToLower`, as it applies to a scheme. -/
def toLower (s : Str) : Str := s.map Char.toLower

/-- Go `parse` (the part of `url.Parse` that follows the fragment). -/
def parse (rawurl : Str) (viaRequest : Bool) : Except Str URL :=
  if stringContainsCTLByte rawurl then
    .error "net/url: invalid control character in URL".toList
  else if rawurl = [] ∧ viaRequest then .error "empty url".toList
  else if rawurl = ['*'] then .ok { Path := ['*'] }
  else
    match getscheme rawurl with
    | .error e => .error e
    | .ok (scheme, rest0) =>
      let scheme := toLower scheme
      let forceQuery : Bool := strings.HasSuffix rest0 ['?'] && rest0.count '?' = 1
      let rest := if forceQuery then rest0.dropLast else (split rest0 '?' true).1
      let rawQuery := if forceQuery then [] else (split rest0 '?' true).2
      let url : URL := { Scheme := scheme, ForceQuery := forceQuery, RawQuery := rawQuery }
      if ¬ strings.HasPrefix rest ['/'] ∧ scheme ≠ [] then
        .ok { url with Opaque := rest }
      else if ¬ strings.HasPrefix rest ['/'] ∧ viaRequest then
        .error "invalid URI for request".toList
      else if ¬ strings.HasPrefix rest ['/'] ∧
          (split rest ':' false).2 ≠ [] ∧ ¬ (split rest ':' false).1.contains '/' then
        .error "first path segment in URL cannot contain colon".toList
      else if (scheme ≠ [] ∨ (¬ viaRequest ∧ ¬ strings.HasPrefix rest ['/', '/', '/'])) ∧
          strings.HasPrefix rest ['/', '/'] then
        match parseAuthority (split (rest.drop 2) '/' false).1 with
        | .error e => .error e
        | .ok (user, host) =>
          setPath { url with User := user, Host := host } (split (rest.drop 2) '/' false).2
      else setPath url rest

/-- Go `url.Parse`. -/
def Parse (rawurl : Str) : Except Str URL :=
  match parse (split rawurl '#' true).1 false with
  | .error e => .error e
  | .ok url =>
    if (split rawurl '#' true).2 = [] then .ok url
    else
      match unescape .encodeFragment (split rawurl '#' true).2 with
      | .error e => .error e
      | .ok frag => .ok { url with Fragment := frag }

/-- Go `validEncodedPath`. -/
def validEncodedPath (s : Str) : Bool :=
  s.all fun c =>
    c ∈ ['!', '$', '&', '\'', '(', ')', '*', '+', ',', ';', '=', ':', '@', '[', ']', '%'] ||
      !shouldEscape c .encodePath

/-- Go `(*URL).EscapedPath`. -/
def URL.EscapedPath (u : URL) : Str :=
  let decodes : Bool :=
    match unescape .encodePath u.RawPath with
    | .ok p => p = u.Path
    | .error _ => false
  if u.RawPath ≠ [] ∧ validEncodedPath u.RawPath ∧ decodes then u.RawPath
  else if u.Path = ['*'] then ['*']
  else escape u.Path .encodePath

/-- Go `(*Userinfo).String`. -/
def Userinfo.String (ui : Userinfo) : Str :=
  escape ui.username .encodeUserPassword ++
    (if ui.passwordSet then ':' :: escape ui.password .encodeUserPassword else [])

/-- Go `(*URL).String`. -/
def URL.String (u : URL) : Str :=
  let buf : Str := if u.Scheme ≠ [] then u.Scheme ++ [':'] else []
  let buf : Str :=
    if u.Opaque ≠ [] then buf ++ u.Opaque
    else
      let buf :=
        if u.Scheme ≠ [] ∨ u.Host ≠ [] ∨ u.User ≠ none then
          let buf := if u.Host ≠ [] ∨ u.Path ≠ [] ∨ u.User ≠ none then buf ++ ['/', '/'] else buf
          let buf :=
            match u.User with
            | some ui => buf ++ ui.String ++ ['@']
            | none => buf
          if u.Host ≠ [] then buf ++ escape u.Host .encodeHost else buf
        else buf
      let path := u.EscapedPath
      let buf := if path ≠ [] ∧ path.head? ≠ some '/' ∧ u.Host ≠ [] then buf ++ ['/'] else buf
      let buf :=
        if buf = [] ∧ (split path ':' false).2 ≠ [] ∧ ¬ (split path ':' false).1.contains '/'
        then buf ++ ['.', '/'] else buf
      buf ++ path
  let buf := if u.ForceQuery ∨ u.RawQuery ≠ [] then buf ++ '?' :: u.RawQuery else buf
  if u.Fragment ≠ [] then buf ++ '#' :: escape u.Fragment .encodeFragment else buf

end url

/-! ## package github.com/whilp/git-urls -/

namespace giturls

/-- The set `Transports` of known git URL schemes. -/
def Transports : List Str :=
  ["ssh", "git", "git+ssh", "http", "https", "ftp", "ftps", "rsync", "file"].map String.toList

/-- The function `ParseTransport`: a standard URL whose scheme is a git transport. -/
def ParseTransport (rawurl : Str) : Except Str url.URL :=
  match url.Parse rawurl with
  | .error e => .error e
  | .ok u =>
    if u.Scheme ∈ Transports then .ok u
    else .error "scheme is not a valid transport".toList

/-- The part `([a-zA-Z0-9._-]+):(.*)$` of the expression `scpSyntax`: a host,
a colon, and a rest without line break. -/
def scpHostPath (s : Str) : Option (Str × Str) :=
  match s.span (fun c => c.isAlphanum || c = '.' || c = '_' || c = '-') with
  | (host, c :: rest) =>
    if host ≠ [] ∧ c = ':' ∧ ¬ rest.contains '\n' then some (host, rest) else none
  | (_, []) => none

/-- The expression `scpSyntax`, `^([a-zA-Z0-9_]+@)?([a-zA-Z0-9._-]+):(.*)$`:
the user (without the `@`), the host and the path of a match. -/
def scpSyntax (s : Str) : Option (Str × Str × Str) :=
  match s.span (fun c => c.isAlphanum || c = '_') with
  | (user, c :: rest) =>
    if user ≠ [] ∧ c = '@' then
      match scpHostPath rest with
      | some (host, path) => some (user, host, path)
      | none => (scpHostPath s).map fun hp => ([], hp.1, hp.2)
    else (scpHostPath s).map fun hp => ([], hp.1, hp.2)
  | (_, []) => none

/-- The function `ParseScp`: an scp-like address `user@host:path`. -/
def ParseScp (rawurl : Str) : Except Str url.URL :=
  match scpSyntax rawurl with
  | none => .error "no scp URL found".toList
  | some (user, host, path) =>
    .ok { Scheme := "ssh".toList,
          User := if user ≠ [] then some (url.User user) else none,
          Host := host,
          Path := (url.split path '?' true).1,
          RawQuery := (url.split path '?' true).2 }

/-- The function `ParseLocal`: any string as a local path. -/
def ParseLocal (rawurl : Str) : Except Str url.URL :=
  .ok { Scheme := "file".toList, Host := [], Path := rawurl }

/-- The function `giturls.Parse`: the first of the three parsers that accepts. -/
def Parse (rawurl : Str) : Except Str url.URL :=
  match ParseTransport rawurl with
  | .ok u => .ok u
  | .error _ =>
    match ParseScp rawurl with
    | .ok u => .ok u
    | .error _ =>
      match ParseLocal rawurl with
      | .ok u => .ok u
      | .error _ => .error "failed to parse".toList

end giturls

/-! ## migrate_bits.go: the output path -/

/-- The package variable `folderBits`. -/
def folderBits : Str := "bits".toList

/-- The function `migrateBitsOutputPath` of migrate_bits.go. -/
def migrateBitsOutputPath (u : url.URL) : Str :=
  let path := u.Path
  let path :=
    if filepath.Base path = "zip".toList ∨ filepath.Base path = "tar".toList then
      filepath.Join (filepath.Dir path) "archive.zip".toList
    else path
  let path :=
    if path ≠ [] then strings.TrimSuffix path (filepath.Ext path) ++ ".zip".toList
    else path
  let host := u.Host
  let host := if host = "glare.now.sh".toList then "github.com".toList else host
  let path := if ¬ strings.HasPrefix path "/".toList then "/".toList ++ path else path
  if host = [] then filepath.Base path
  else if path = [] then filepath.FromSlash host ++ ".zip".toList
  else filepath.FromSlash (strings.TrimSuffix host "/".toList ++ path)

/-! ## Go maps -/

/-- A Go map from strings to strings (`map[string]string`, and
`map[string]interface{}` whose values are strings): a list of entries, read
by its first entry for a key. -/
abbrev Attrs := List (Str × Str)

/-- The map read at a key: `m[key]` with its presence flag. -/
def Attrs.get : Attrs → Str → Option Str
  | [], _ => none
  | (k, v) :: m, key => if k = key then some v else Attrs.get m key

/-- The assignment `m[key] = v`. -/
def Attrs.set (m : Attrs) (key v : Str) : Attrs :=
  if (m.get key).isSome then m.map (fun p => if p.1 = key then (p.1, v) else p)
  else m ++ [(key, v)]

/-- The statement `delete(m, key)`. -/
def Attrs.delete (m : Attrs) (key : Str) : Attrs :=
  m.filter (fun p => p.1 ≠ key)

/-- How a call ends when it does not return a value: with an error value, or
with a run-time panic. -/
inductive Fault
  | error (msg : Str)
  | panic (msg : Str)
  deriving DecidableEq, Repr

/-- The expression `m[key].(string)` on a `map[string]interface{}`: a key
that is absent gives the nil interface, and the type assertion panics. -/
def assertString (m : Attrs) (key : Str) : Except Fault Str :=
  match m.get key with
  | some v => .ok v
  | none => .error (.panic "interface conversion: interface is nil, not string".toList)

/-! ## migrate_bits.go: the source URL -/

/-- The function `migrateBitsUrl` of migrate_bits.go.  The result `none` is
the nil URL. -/
def migrateBitsUrl (rawUrl : Str) (git github : Attrs) : Except Fault (Option url.URL) :=
  if rawUrl ≠ [] then
    match url.Parse (strings.TrimPrefix rawUrl "file://".toList) with
    | .error e => .error (.error e)
    | .ok u => .ok (some u)
  else if git.length > 0 then
    match assertString git "url".toList with
    | .error f => .error f
    | .ok gitUrl =>
      match giturls.Parse gitUrl with
      | .error e => .error (.error e)
      | .ok u =>
        match assertString git "branch".toList with
        | .error f => .error f
        | .ok branch =>
          match assertString git "tag".toList with
          | .error f => .error f
          | .ok tag =>
            let u : url.URL :=
              if branch ≠ [] ∨ tag ≠ [] then { u with Fragment := branch ++ tag } else u
            match assertString git "user".toList with
            | .error f => .error f
            | .ok user =>
              if user ≠ [] then
                match assertString git "password".toList with
                | .error f => .error f
                | .ok password => .ok (some { u with User := some (url.UserPassword user password) })
              else .ok (some u)
  else if github.length = 0 then .ok none
  else
    match assertString github "version".toList with
    | .error f => .error f
    | .ok version =>
      match assertString github "filename".toList with
      | .error f => .error f
      | .ok filename =>
        match assertString github "owner".toList with
        | .error f => .error f
        | .ok owner =>
          match assertString github "repo".toList with
          | .error f => .error f
          | .ok repo =>
            let parsed :=
              if version ≠ [] ∧ filename = "zipball".toList then
                url.Parse ("https://github.com/".toList ++ owner ++ "/".toList ++ repo ++
                  "/archive/".toList ++ version ++ ".zip".toList)
              else if version ≠ [] ∧ filename = "tarball".toList then
                url.Parse ("https://github.com/".toList ++ owner ++ "/".toList ++ repo ++
                  "/archive/".toList ++ version ++ ".tar.gz".toList)
              else if version ≠ [] then
                url.Parse ("https://github.com/".toList ++ owner ++ "/".toList ++ repo ++
                  "/releases/download/".toList ++ version ++ "/".toList ++ filename)
              else if filename = "zipball".toList then
                url.Parse ("https://glare.now.sh/".toList ++ owner ++ "/".toList ++ repo ++
                  "/zip".toList)
              else if filename = "tarball".toList then
                url.Parse ("https://glare.now.sh/".toList ++ owner ++ "/".toList ++ repo ++
                  "/tar".toList)
              else
                url.Parse ("https://glare.now.sh/".toList ++ owner ++ "/".toList ++ repo ++
                  "/".toList ++ filename)
            match parsed with
            | .error e => .error (.error e)
            | .ok u =>
              match assertString github "user".toList with
              | .error f => .error f
              | .ok user =>
                if user ≠ [] then
                  match assertString github "password".toList with
                  | .error f => .error f
                  | .ok password =>
                    .ok (some { u with User := some (url.UserPassword user password) })
                else .ok (some u)

/-! ## package strconv and the field reader of terraform's helper/schema -/

namespace strconv

/-- The value of a digit in Go `strconv.ParseUint`. -/
def digitVal (c : Char) : Option Nat :=
  if c.isDigit then some (c.toNat - '0'.toNat)
  else if c.isLower then some (c.toNat - 'a'.toNat + 10)
  else if c.isUpper then some (c.toNat - 'A'.toNat + 10)
  else none

/-- The digit loop of Go `strconv.ParseUint`, without its bound. -/
def parseDigits (base : Nat) : Str → Nat → Option Nat
  | [], n => some n
  | c :: t, n =>
    match digitVal c with
    | some d => if d < base then parseDigits base t (n * base + d) else none
    | none => none

/-- Go `strconv.ParseUint(s, 0, 64)` without its bound: `0x` announces base 16,
another leading `0` base 8. -/
def parseUintBase0 (s : Str) : Option Nat :=
  match s with
  | [] => none
  | c :: t =>
    if c = '0' ∧ (t.head? = some 'x' ∨ t.head? = some 'X') then
      if t.tail = [] then none else parseDigits 16 t.tail 0
    else if c = '0' then parseDigits 8 t 0
    else parseDigits 10 s 0

/-- Go `strconv.ParseInt(s, 0, 0)` on a 64-bit target; `none` is an error
(of syntax or of range). -/
def ParseInt (s : Str) : Option Int :=
  match s with
  | [] => none
  | c :: t =>
    let neg : Bool := c = '-'
    let digits := if c = '+' ∨ c = '-' then t else s
    match parseUintBase0 digits with
    | none => none
    | some un =>
      if ¬ neg ∧ un ≥ 2 ^ 63 then none
      else if neg ∧ un > 2 ^ 63 then none
      else some (if neg then -(un : Int) else (un : Int))

/-- Go `strconv.FormatInt(i, 10)` for an index. -/
def FormatInt (i : Nat) : Str := (Nat.repr i).toList

end strconv

namespace schema

/-- The fields of the block `git` in `schemaOldBits`. -/
def gitFields : List Str :=
  ["url", "branch", "tag", "user", "password", "key"].map String.toList

/-- The fields of the block `github_release` in `schemaOldBits`. -/
def githubFields : List Str :=
  ["owner", "repo", "user", "password", "version", "filename"].map String.toList

/-- The fields of the block `add_content` in `schemaOldBits`. -/
def addContentFields : List Str :=
  ["source", "destination"].map String.toList

/-- The call `MapFieldReader.ReadField` on a field of type string: the value
stored at the key, with its presence flag. -/
def readString (attrs : Attrs) (key : Str) : Except Fault (Option Str) :=
  .ok (attrs.get key)

/-- The call `MapFieldReader.ReadField` on the count key `name.#` of a list: an
absent key and an empty value count as 0, any other value is read by
`strconv.ParseInt`. -/
def readCount (attrs : Attrs) (name : Str) : Except Fault Int :=
  match attrs.get (name ++ ".#".toList) with
  | none => .ok 0
  | some v =>
    if v = [] then .ok 0
    else
      match strconv.ParseInt v with
      | some n => .ok n
      | none => .error (.error "strconv.ParseInt: parsing failed".toList)

/-- The function `readObjectField` on an element of a list of blocks: every
declared field is read at `addr.field`, an absent one as the empty string.  The
element exists when one of its keys does; `none` is the nil value the list
reader stores otherwise. -/
def readObjectField (attrs : Attrs) (addr : Str) (fields : List Str) : Option Attrs :=
  if fields.any (fun f => (attrs.get (addr ++ '.' :: f)).isSome) then
    some (fields.map fun f => (f, (attrs.get (addr ++ '.' :: f)).getD []))
  else none

/-- The function `readListField` on a list of blocks: as many elements as the
count key says.  A negative count makes the allocation of the result
panic. -/
def readListField (attrs : Attrs) (name : Str) (fields : List Str) :
    Except Fault (List (Option Attrs)) :=
  match readCount attrs name with
  | .error f => .error f
  | .ok count =>
    if count = 0 then .ok []
    else if count < 0 then .error (.panic "makeslice: len out of range".toList)
    else
      .ok ((List.range count.toNat).map fun i =>
        readObjectField attrs (name ++ '.' :: strconv.FormatInt i) fields)

end schema

/-- Modelled from the spec: `getListOfStructs` is a helper of the package that
is not among the source files.  It turns the value read for a list of blocks
into the list of its blocks ("list-of-struct fields flattened with indexed
keys"); elements that are nil are left out. -/
def getListOfStructs (v : List (Option Attrs)) : List Attrs :=
  v.filterMap id

/-- Modelled from the spec: `cleanByKeyAttribute` is a helper of the package
that is not among the source files.  It deletes "every key belonging to the
`git.*` and `github_release.*` nested groups (by key-prefix match)": every key
that begins with the name of the group followed by a dot. -/
def cleanByKeyAttribute (keyAttr : Str) (m : Attrs) : Attrs :=
  m.filter (fun p => ¬ strings.HasPrefix p.1 (keyAttr ++ ['.']))

/-- The function `migrateBitsDeleteAttr` of migrate_bits.go. -/
def migrateBitsDeleteAttr (m : Attrs) : Attrs :=
  let m := m.delete "add_content".toList
  let m := m.delete "url".toList
  let m := cleanByKeyAttribute "git".toList m
  let m := cleanByKeyAttribute "github_release".toList m
  m

/-! ## The state, the outside world, and the migration -/

/-- The type `terraform.InstanceState`, reduced to the two fields the migration
reads or writes. -/
structure InstanceState where
  ID : Str
  Attributes : Attrs
  deriving DecidableEq, Repr

/-- The method `(*InstanceState).Empty`: a nil state, or a state without ID. -/
def InstanceState.Empty (is : Option InstanceState) : Bool :=
  match is with
  | none => true
  | some s => s.ID = []

/-- A call made to the content-fetching service or to the filesystem. -/
inductive Effect
  | createSession (uri handlerName : Str)
  | sha1
  | mkdirAll (dir : Str)
  | zip
  | create (path : Str)
  | copy (path : Str)
  | closeFile
  | closeZip
  deriving DecidableEq, Repr

/-- The results of the external steps: for each call that can fail, the error
it returns (`none` when it succeeds); for the digest, its value. -/
structure World where
  zipperManager : Option Str
  createSession : Str → Str → Option Str
  sha1 : Except Str Str
  mkdirAll : Str → Option Str
  zip : Option Str
  create : Str → Option Str
  copy : Option Str

/-- How a call of `migrateBitsStateV2toV3` ends: it returns a state and an
error value (`none` is the nil error) after the external calls of `trace`, or
it panics. -/
inductive Outcome
  | returned (is : Option InstanceState) (err : Option Str) (trace : List Effect)
  | panicked (msg : Str)
  deriving DecidableEq, Repr

/-- The error returned when `add_content` is populated. -/
def addContentError : Str :=
  "add_content attribute can't be migrate, please fixeit in other way and remove from terraform.tfstate add_content attributes".toList

/-- The part of `migrateBitsStateV2toV3` that follows the fast path: the
archive is fetched, hashed and written. -/
def materialize (st : InstanceState) (w : World) (u : url.URL) : Outcome :=
  match w.zipperManager with
  | some e => .returned (some st) (some e) []
  | none =>
    let handlerName : Str := if u.Host = [] then "local".toList else []
    let tr := [Effect.createSession u.String handlerName]
    match w.createSession u.String handlerName with
    | some e => .returned (some st) (some e) tr
    | none =>
      let tr := tr ++ [Effect.sha1]
      match w.sha1 with
      | .error e => .returned (some st) (some e) tr
      | .ok sha1 =>
        let st : InstanceState :=
          { st with Attributes := st.Attributes.set "source_code_hash".toList sha1 }
        let outputPath := filepath.Join folderBits (migrateBitsOutputPath u)
        let tr := tr ++ [Effect.mkdirAll (filepath.Dir outputPath)]
        match w.mkdirAll (filepath.Dir outputPath) with
        | some e => .returned (some st) (some e) tr
        | none =>
          let tr := tr ++ [Effect.zip]
          match w.zip with
          | some e => .returned (some st) (some e) tr
          | none =>
            let tr := tr ++ [Effect.create outputPath]
            match w.create outputPath with
            | some e => .returned (some st) (some e) (tr ++ [Effect.closeZip])
            | none =>
              let tr := tr ++ [Effect.copy outputPath]
              match w.copy with
              | some e =>
                .returned (some st) (some e) (tr ++ [Effect.closeFile, Effect.closeZip])
              | none =>
                let st : InstanceState :=
                  { st with Attributes :=
                      migrateBitsDeleteAttr (st.Attributes.set "path".toList outputPath) }
                .returned (some st) none (tr ++ [Effect.closeFile, Effect.closeZip])

/-- The function `migrateBitsStateV2toV3` of migrate_bits.go.  The state is
passed by pointer (`none` is nil) and the function writes into its attribute
map: the state returned is the state the caller holds afterwards. -/
def migrateBitsStateV2toV3 (is : Option InstanceState) (w : World) : Outcome :=
  match is with
  | none => .returned none none []
  | some st =>
    if InstanceState.Empty (some st) then .returned (some st) none []
    else
      match schema.readString st.Attributes "url".toList with
      | .error (.panic m) => .panicked m
      | .error (.error e) => .returned (some st) (some e) []
      | .ok result =>
        let rawUrl : Str := result.getD []
        match schema.readListField st.Attributes "git".toList schema.gitFields with
        | .error (.panic m) => .panicked m
        | .error (.error e) => .returned (some st) (some e) []
        | .ok gitValue =>
          let git : Attrs := (getListOfStructs gitValue).headD []
          match schema.readListField st.Attributes "github_release".toList schema.githubFields with
          | .error (.panic m) => .panicked m
          | .error (.error e) => .returned (some st) (some e) []
          | .ok githubValue =>
            let github : Attrs := (getListOfStructs githubValue).headD []
            match schema.readListField st.Attributes "add_content".toList
                schema.addContentFields with
            | .error (.panic m) => .panicked m
            | .error (.error e) => .returned (some st) (some e) []
            | .ok addValue =>
              if (getListOfStructs addValue).length > 0 then
                .returned (some st) (some addContentError) []
              else
                match migrateBitsUrl rawUrl git github with
                | .error (.panic m) => .panicked m
                | .error (.error e) => .returned (some st) (some e) []
                | .ok none => .returned (some st) none []
                | .ok (some u) =>
                  if (u.Scheme = "http".toList ∨ u.Scheme = "https".toList) ∧
                      filepath.Ext u.Path = ".zip".toList then
                    .returned
                      (some { st with Attributes :=
                        migrateBitsDeleteAttr (st.Attributes.set "path".toList u.String) })
                      none []
                  else materialize st w u

/-! ## Notions used to state the properties -/

/-- A path that lies under the directory `bits`: the text `bits`, a separator,
and a non-empty remainder. -/
def underBits (p : Str) : Prop :=
  strings.HasPrefix p "bits/".toList = true ∧ "bits/".toList.length < p.length

instance (p : Str) : Decidable (underBits p) := by
  unfold underBits; infer_instance

/-- A path without an element `..`. -/
def noDotDot (p : Str) : Prop :=
  ∀ seg ∈ filepath.splitSlash p, seg ≠ ['.', '.']

instance (p : Str) : Decidable (noDotDot p) := by
  unfold noDotDot; infer_instance

/-- The characters that never need escaping in a URL (RFC 3986, unreserved):
letters, digits, and the four marks. -/
def unreservedChars : Str :=
  "ABCDEFGHIJKLMNOPQRSTUVWXYZabcdefghijklmnopqrstuvwxyz0123456789-._~".toList

/-- A string made of characters that need no URL escaping. -/
def unreserved (s : Str) : Prop :=
  ∀ c ∈ s, c ∈ unreservedChars

instance (s : Str) : Decidable (unreserved s) := by
  unfold unreserved; infer_instance

/-- The URL template of the decision table for a GitHub release, by the words
of the specification: rows by whether the version is set and by the
filename. -/
def githubReleaseTemplate (version filename owner repo : Str) : Str :=
  if version ≠ [] then
    if filename = "zipball".toList then
      "https://github.com/".toList ++ owner ++ "/".toList ++ repo ++ "/archive/".toList ++
        version ++ ".zip".toList
    else if filename = "tarball".toList then
      "https://github.com/".toList ++ owner ++ "/".toList ++ repo ++ "/archive/".toList ++
        version ++ ".tar.gz".toList
    else
      "https://github.com/".toList ++ owner ++ "/".toList ++ repo ++
        "/releases/download/".toList ++ version ++ "/".toList ++ filename
  else
    if filename = "zipball".toList then
      "https://glare.now.sh/".toList ++ owner ++ "/".toList ++ repo ++ "/zip".toList
    else if filename = "tarball".toList then
      "https://glare.now.sh/".toList ++ owner ++ "/".toList ++ repo ++ "/tar".toList
    else
      "https://glare.now.sh/".toList ++ owner ++ "/".toList ++ repo ++ "/".toList ++ filename

/-- The final segment of a path, by the words of the specification: the text
after its last separator. -/
def finalSegment (p : Str) : Str :=
  (p.reverse.takeWhile (fun c => c ≠ '/')).reverse

/-- The extension of a segment, by the words of the specification: the suffix
from its last dot, none if it has no dot. -/
def segmentExtension (s : Str) : Str :=
  if '.' ∈ s then '.' :: (s.reverse.takeWhile (fun c => c ≠ '.')).reverse else []

/-- The path in which the extension of the final segment is replaced by
`.zip`, by the words of the specification. -/
def replaceExtension (p : Str) : Str :=
  p.take (p.length - (segmentExtension (finalSegment p)).length) ++ ".zip".toList

end MigrateBits

/-! # Theorems -/

namespace MigrateBits

/-! ## Lemmas on maps -/

theorem Attrs.get_filter (q : Str → Bool) (m : Attrs) (k : Str) :
    Attrs.get (m.filter (fun p => q p.1)) k = if q k then Attrs.get m k else none := by
  induction m with
  | nil => simp [Attrs.get]
  | cons p m ih =>
    obtain ⟨a, b⟩ := p
    by_cases hq : q a = true
    · by_cases hk : a = k
      · subst hk; simp [List.filter, hq, Attrs.get]
      · simp [List.filter, hq, Attrs.get, hk, ih]
    · by_cases hk : a = k
      · subst hk; simp [List.filter, hq, ih]
      · simp [List.filter, hq, Attrs.get, hk, ih]

theorem Attrs.get_delete (m : Attrs) (key k : Str) :
    Attrs.get (m.delete key) k = if k = key then none else Attrs.get m k := by
  have e : m.delete key = m.filter (fun p => (fun a => decide (a ≠ key)) p.1) := rfl
  rw [e, Attrs.get_filter (fun a => decide (a ≠ key))]
  by_cases h : k = key <;> simp [h]

theorem get_cleanByKeyAttribute (g : Str) (m : Attrs) (k : Str) :
    Attrs.get (cleanByKeyAttribute g m) k
      = if strings.HasPrefix k (g ++ ['.']) = true then none else Attrs.get m k := by
  have e : cleanByKeyAttribute g m
      = m.filter (fun p => (fun a => ! strings.HasPrefix a (g ++ ['.'])) p.1) := by
    unfold cleanByKeyAttribute; congr 1; funext p; simp
  rw [e, Attrs.get_filter (fun a => ! strings.HasPrefix a (g ++ ['.']))]
  by_cases h : strings.HasPrefix k (g ++ ['.']) = true <;> simp [h]

theorem Attrs.get_map_replace (m : Attrs) (key v k : Str) :
    Attrs.get (m.map (fun p => if p.1 = key then (p.1, v) else p)) k
      = if k = key then (Attrs.get m k).map (fun _ => v) else Attrs.get m k := by
  induction m with
  | nil => simp [Attrs.get]
  | cons p m ih =>
    obtain ⟨a, b⟩ := p
    rw [List.map_cons]
    by_cases ha : a = key
    · rw [if_pos (show (a, b).1 = key from ha)]
      show Attrs.get ((a, v) :: _) k = _
      by_cases hk : a = k
      · have hk' : k = key := by rw [← hk, ha]
        simp [Attrs.get, hk, hk']
      · have hk' : ¬ k = key := fun h => hk (by rw [ha, h])
        simp only [Attrs.get, if_neg hk, ih, if_neg hk']
    · rw [if_neg (show ¬ (a, b).1 = key from ha)]
      by_cases hk : a = k
      · have hk' : ¬ k = key := fun h => ha (by rw [hk, h])
        simp [Attrs.get, hk, hk']
      · simp only [Attrs.get, if_neg hk, ih]

theorem Attrs.get_append_single (m : Attrs) (key v k : Str) :
    Attrs.get (m ++ [(key, v)]) k
      = match Attrs.get m k with
        | some x => some x
        | none => if key = k then some v else none := by
  induction m with
  | nil => simp [Attrs.get]
  | cons p m ih =>
    obtain ⟨a, b⟩ := p
    by_cases hk : a = k
    · simp [Attrs.get, hk]
    · simp [Attrs.get, hk, ih]

theorem Attrs.get_set (m : Attrs) (key v k : Str) :
    Attrs.get (m.set key v) k = if k = key then some v else Attrs.get m k := by
  unfold Attrs.set
  by_cases h : (Attrs.get m key).isSome = true
  · rw [if_pos h, Attrs.get_map_replace]
    by_cases hk : k = key
    · subst hk
      obtain ⟨x, hx⟩ := Option.isSome_iff_exists.mp h
      simp [hx]
    · simp [hk]
  · rw [if_neg h, Attrs.get_append_single]
    by_cases hk : k = key
    · subst hk
      have : Attrs.get m k = none := by simpa using h
      simp [this]
    · have hk' : ¬ key = k := fun e => hk e.symm
      cases hg : Attrs.get m k <;> simp [hk, hk']

theorem get_migrateBitsDeleteAttr (m : Attrs) (k : Str) :
    Attrs.get (migrateBitsDeleteAttr m) k
      = if k = "add_content".toList ∨ k = "url".toList ∨
            strings.HasPrefix k "git.".toList = true ∨
            strings.HasPrefix k "github_release.".toList = true
        then none else Attrs.get m k := by
  have g1 : "git".toList ++ ['.'] = "git.".toList := rfl
  have g2 : "github_release".toList ++ ['.'] = "github_release.".toList := rfl
  unfold migrateBitsDeleteAttr
  rw [get_cleanByKeyAttribute, get_cleanByKeyAttribute, Attrs.get_delete, Attrs.get_delete, g1, g2]
  by_cases h1 : k = "add_content".toList
  · simp [h1]
  by_cases h2 : k = "url".toList
  · simp [h2]
  by_cases h3 : strings.HasPrefix k "git.".toList = true
  · rw [if_pos (Or.inr (Or.inr (Or.inl h3))), if_pos h3]; simp
  by_cases h4 : strings.HasPrefix k "github_release.".toList = true
  · rw [if_pos (Or.inr (Or.inr (Or.inr h4))), if_pos h4]
  rw [if_neg h4, if_neg h3, if_neg h2, if_neg h1, if_neg]
  rintro (h | h | h | h) <;> contradiction

/-! ## Lemmas on the migration -/

theorem materialize_ok_cases (st : InstanceState) (w : World) (u : url.URL)
    (s' : InstanceState) (tr : List Effect)
    (h : materialize st w u = .returned (some s') none tr) :
    ∃ m, s'.Attributes = migrateBitsDeleteAttr m := by
  unfold materialize at h
  obtain ⟨zm, cs, sha, mk, zp, cr, cp⟩ := w
  dsimp only at h
  generalize cs u.String _ = a at h
  generalize mk _ = b at h
  generalize cr _ = c at h
  cases zm <;> cases a <;> cases sha <;> cases b <;> cases zp <;> cases c <;> cases cp <;>
    dsimp only at h <;>
    first
    | (injection h with h1 h2 h3; injection h1 with h1; subst h1; exact ⟨_, rfl⟩)
    | (injection h with h1 h2 h3; cases h2)

theorem migrateBitsUrl_none (rawUrl : Str) (git github : Attrs)
    (h : migrateBitsUrl rawUrl git github = .ok none) :
    rawUrl = [] ∧ git = [] ∧ github = [] := by
  unfold migrateBitsUrl at h
  by_cases h1 : rawUrl = []
  · by_cases h2 : git = []
    · by_cases h3 : github = []
      · exact ⟨h1, h2, h3⟩
      · exfalso
        have h3' : ¬ github.length = 0 := fun e => h3 (List.length_eq_zero.mp e)
        rw [if_neg (not_not.mpr h1), h2, if_neg (by simp), if_neg h3'] at h
        generalize assertString github "version".toList = a1 at h
        generalize assertString github "filename".toList = a2 at h
        generalize assertString github "owner".toList = a3 at h
        generalize assertString github "repo".toList = a4 at h
        generalize assertString github "user".toList = a5 at h
        generalize assertString github "password".toList = a6 at h
        rcases a1 with _ | a1 <;> try (cases h)
        rcases a2 with _ | a2 <;> try (cases h)
        rcases a3 with _ | a3 <;> try (cases h)
        rcases a4 with _ | a4 <;> try (cases h)
        dsimp only at h
        generalize (if a1 ≠ [] ∧ a2 = "zipball".toList then _ else _ : Except Str url.URL) = p at h
        rcases p with _ | p <;> try (cases h)
        rcases a5 with _ | a5 <;> try (cases h)
        dsimp only at h
        split at h
        · rcases a6 with _ | a6 <;> cases h
        · cases h
    · exfalso
      have h2' : git.length > 0 := List.length_pos.mpr h2
      rw [if_neg (not_not.mpr h1), if_pos h2'] at h
      generalize assertString git "url".toList = a1 at h
      generalize assertString git "branch".toList = a2 at h
      generalize assertString git "tag".toList = a3 at h
      generalize assertString git "user".toList = a5 at h
      generalize assertString git "password".toList = a6 at h
      rcases a1 with _ | a1 <;> try (cases h)
      dsimp only at h
      generalize giturls.Parse a1 = p at h
      rcases p with _ | p <;> try (cases h)
      rcases a2 with _ | a2 <;> try (cases h)
      rcases a3 with _ | a3 <;> try (cases h)
      rcases a5 with _ | a5 <;> try (cases h)
      dsimp only at h
      split at h
      · rcases a6 with _ | a6 <;> cases h
      · cases h
  · exfalso
    rw [if_pos h1] at h
    generalize url.Parse _ = p at h
    rcases p with _ | p <;> cases h

theorem returned_ok_cases (st : InstanceState) (w : World) (s' : InstanceState)
    (tr : List Effect) (hID : st.ID ≠ [])
    (h : migrateBitsStateV2toV3 (some st) w = .returned (some s') none tr) :
    (s' = st ∧ ∃ gv ghv,
        schema.readListField st.Attributes "git".toList schema.gitFields = .ok gv ∧
        schema.readListField st.Attributes "github_release".toList schema.githubFields = .ok ghv ∧
        (st.Attributes.get "url".toList).getD [] = [] ∧
        (getListOfStructs gv).headD [] = [] ∧ (getListOfStructs ghv).headD [] = []) ∨
      ∃ m, s'.Attributes = migrateBitsDeleteAttr m := by
  unfold migrateBitsStateV2toV3 at h
  dsimp only at h
  have hE : ¬ InstanceState.Empty (some st) = true := by simpa [InstanceState.Empty] using hID
  rw [if_neg hE] at h
  simp only [schema.readString] at h
  generalize hr1 : schema.readListField st.Attributes "git".toList _ = r1 at h
  generalize hr2 : schema.readListField st.Attributes "github_release".toList _ = r2 at h
  generalize schema.readListField st.Attributes "add_content".toList _ = r3 at h
  rcases r1 with (_ | _) | r1 <;> try (first | (injection h with h1 h2 h3; cases h2) | cases h)
  rcases r2 with (_ | _) | r2 <;> try (first | (injection h with h1 h2 h3; cases h2) | cases h)
  rcases r3 with (_ | _) | r3 <;> try (first | (injection h with h1 h2 h3; cases h2) | cases h)
  dsimp only at h
  split at h
  · injection h with h1 h2 h3; cases h2
  generalize hr4 : migrateBitsUrl _ _ _ = r4 at h
  rcases r4 with (_ | _) | (_ | u) <;> dsimp only at h
  · injection h with h1 h2 h3; cases h2
  · cases h
  · injection h with h1; injection h1 with h1
    obtain ⟨e1, e2, e3⟩ := migrateBitsUrl_none _ _ _ hr4
    exact Or.inl ⟨h1.symm, r1, r2, rfl, rfl, e1, e2, e3⟩
  · split at h
    · injection h with h1; injection h1 with h1; subst h1; exact Or.inr ⟨_, rfl⟩
    · exact Or.inr (materialize_ok_cases _ _ _ _ _ h)

/-! ## Lemmas on strings and paths -/

namespace strings

theorem TrimSuffix_append (stem e : Str) : TrimSuffix (stem ++ e) e = stem := by
  unfold TrimSuffix HasSuffix
  have h : e.isSuffixOf (stem ++ e) = true := by
    rw [List.isSuffixOf_iff_suffix]; exact List.suffix_append stem e
  rw [if_pos h]
  simp

theorem TrimSuffix_nil (s : Str) : TrimSuffix s [] = s := by
  simpa using TrimSuffix_append s []

theorem TrimSuffix_slash_of_not_mem (h : Str) (hh : '/' ∉ h) :
    TrimSuffix h "/".toList = h := by
  unfold TrimSuffix HasSuffix
  have hn : ¬ ("/".toList.isSuffixOf h = true) := by
    rw [List.isSuffixOf_iff_suffix]
    rintro ⟨t, rfl⟩
    exact hh (by simp)
  rw [if_neg hn]

theorem HasSuffix_append (a b : Str) : HasSuffix (a ++ b) b = true := by
  unfold HasSuffix
  rw [List.isSuffixOf_iff_suffix]; exact List.suffix_append a b

end strings

namespace filepath

theorem splitSlash_ne_nil (s : Str) : splitSlash s ≠ [] := by
  cases s with
  | nil => simp [splitSlash]
  | cons c t =>
    unfold splitSlash
    by_cases hc : c = '/'
    · rw [if_pos hc]; simp
    · rw [if_neg hc]; split <;> simp

theorem splitSlash_cons_slash (t : Str) : splitSlash ('/' :: t) = [] :: splitSlash t := by
  rw [splitSlash, if_pos rfl]

theorem splitSlash_cons_of_ne (c : Char) (t : Str) (s : Str) (ss : List Str) (hc : c ≠ '/')
    (h : splitSlash t = s :: ss) : splitSlash (c :: t) = (c :: s) :: ss := by
  rw [splitSlash, if_neg hc, h]

theorem splitSlash_append_slash (a b : Str) :
    splitSlash (a ++ '/' :: b) = splitSlash a ++ splitSlash b := by
  induction a with
  | nil => rw [List.nil_append, splitSlash_cons_slash]; rfl
  | cons c a ih =>
    by_cases hc : c = '/'
    · subst hc
      rw [List.cons_append, splitSlash_cons_slash, splitSlash_cons_slash, ih, List.cons_append]
    · obtain ⟨s, ss, hs⟩ : ∃ s ss, splitSlash a = s :: ss := by
        cases h : splitSlash a with
        | nil => exact absurd h (splitSlash_ne_nil a)
        | cons s ss => exact ⟨s, ss, rfl⟩
      rw [List.cons_append, splitSlash_cons_of_ne c _ s (ss ++ splitSlash b) hc (by rw [ih, hs]; rfl),
        splitSlash_cons_of_ne c a s ss hc hs]
      rfl

theorem splitSlash_of_not_mem (a : Str) (h : '/' ∉ a) : splitSlash a = [a] := by
  induction a with
  | nil => rfl
  | cons c a ih =>
    have hc : c ≠ '/' := fun e => h (by simp [e])
    have ha : '/' ∉ a := fun e => h (by simp [e])
    exact splitSlash_cons_of_ne c a a [] hc (ih ha)

theorem splitSlash_snoc_form (a : Str) :
    ∃ init last, splitSlash a = init ++ [last] ∧
      ∀ x : Str, '/' ∉ x → splitSlash (a ++ x) = init ++ [last ++ x] := by
  induction a with
  | nil =>
    refine ⟨[], [], rfl, ?_⟩
    intro x hx
    simpa using splitSlash_of_not_mem x hx
  | cons c a ih =>
    obtain ⟨init, last, h1, h2⟩ := ih
    by_cases hc : c = '/'
    · subst hc
      refine ⟨[] :: init, last, ?_, ?_⟩
      · rw [splitSlash_cons_slash, h1]; rfl
      · intro x hx
        rw [List.cons_append, splitSlash_cons_slash, h2 x hx]; rfl
    · cases init with
      | nil =>
        refine ⟨[], c :: last, ?_, ?_⟩
        · exact splitSlash_cons_of_ne c a last [] hc h1
        · intro x hx
          exact splitSlash_cons_of_ne c _ (last ++ x) [] hc (h2 x hx)
      | cons s ss =>
        refine ⟨(c :: s) :: ss, last, ?_, ?_⟩
        · exact splitSlash_cons_of_ne c a s (ss ++ [last]) hc h1
        · intro x hx
          exact splitSlash_cons_of_ne c _ s (ss ++ [last ++ x]) hc (h2 x hx)

theorem splitSlash_not_mem (s : Str) : ∀ seg ∈ splitSlash s, '/' ∉ seg := by
  induction s with
  | nil => intro seg h; simp [splitSlash] at h; subst h; simp
  | cons c t ih =>
    by_cases hc : c = '/'
    · subst hc
      rw [splitSlash_cons_slash]
      intro seg h
      rcases List.mem_cons.mp h with h | h
      · subst h; simp
      · exact ih seg h
    · obtain ⟨s, ss, hs⟩ : ∃ s ss, splitSlash t = s :: ss := by
        cases h : splitSlash t with
        | nil => exact absurd h (splitSlash_ne_nil t)
        | cons s ss => exact ⟨s, ss, rfl⟩
      rw [splitSlash_cons_of_ne c t s ss hc hs]
      intro seg h
      rcases List.mem_cons.mp h with h | h
      · subst h
        have := ih s (by rw [hs]; simp)
        intro hm
        rcases List.mem_cons.mp hm with e | e
        · exact hc e.symm
        · exact this e
      · exact ih seg (by rw [hs]; exact List.mem_cons_of_mem _ h)

theorem joinSlash_cons (a : Str) (l : List Str) (h : l ≠ []) :
    joinSlash (a :: l) = a ++ '/' :: joinSlash l := by
  cases l with
  | nil => exact absurd rfl h
  | cons b l => rfl

theorem joinSlash_snoc (l : List Str) (b : Str) (h : l ≠ []) :
    joinSlash (l ++ [b]) = joinSlash l ++ '/' :: b := by
  induction l with
  | nil => exact absurd rfl h
  | cons a l ih =>
    cases l with
    | nil => rfl
    | cons c l =>
      have e : (a :: c :: l) ++ [b] = a :: ((c :: l) ++ [b]) := rfl
      rw [e, joinSlash_cons a _ (by simp), ih (by simp), joinSlash_cons a _ (by simp)]
      simp

theorem splitSlash_joinSlash (l : List Str) (h : l ≠ []) (hs : ∀ seg ∈ l, '/' ∉ seg) :
    splitSlash (joinSlash l) = l := by
  induction l with
  | nil => exact absurd rfl h
  | cons a l ih =>
    cases l with
    | nil => exact splitSlash_of_not_mem a (hs a (by simp))
    | cons b l =>
      rw [joinSlash_cons a _ (by simp), splitSlash_append_slash,
        splitSlash_of_not_mem a (hs a (by simp)),
        ih (by simp) (fun seg hm => hs seg (List.mem_cons_of_mem _ hm))]
      rfl

end filepath

namespace filepath

theorem cleanStep_real (r : Bool) (st : List Str) (seg : Str) (h1 : seg ≠ [])
    (h2 : seg ≠ ['.']) (h3 : seg ≠ ['.', '.']) : cleanStep r st seg = seg :: st := by
  unfold cleanStep
  rw [if_neg (by rintro (h | h) <;> contradiction), if_neg h3]

theorem cleanStep_skip (r : Bool) (st : List Str) (seg : Str) (h : seg = [] ∨ seg = ['.']) :
    cleanStep r st seg = st := by
  unfold cleanStep
  rw [if_pos h]

theorem foldl_cleanStep_noDotDot (r : Bool) (l : List Str)
    (h : ∀ seg ∈ l, seg ≠ ['.', '.']) (st : List Str) :
    l.foldl (cleanStep r) st
      = (l.filter (fun seg => decide (¬ (seg = [] ∨ seg = ['.'])))).reverse ++ st := by
  induction l generalizing st with
  | nil => rfl
  | cons a l ih =>
    have hl : ∀ seg ∈ l, seg ≠ ['.', '.'] := fun seg hm => h seg (List.mem_cons_of_mem _ hm)
    have ha : a ≠ ['.', '.'] := h a (by simp)
    rw [List.foldl_cons, ih hl]
    by_cases hs : a = [] ∨ a = ['.']
    · rw [cleanStep_skip r st a hs,
        List.filter_cons_of_neg (by rw [decide_eq_true_eq]; exact not_not.mpr hs)]
    · have h1 : a ≠ [] := fun e => hs (Or.inl e)
      have h2 : a ≠ ['.'] := fun e => hs (Or.inr e)
      rw [cleanStep_real r st a h1 h2 ha,
        List.filter_cons_of_pos (by rw [decide_eq_true_eq]; exact hs)]
      simp

theorem Clean_noDotDot (s : Str) (hs : s ≠ []) (h : noDotDot s) :
    Clean s =
      if s.head? = some '/' then
        '/' :: joinSlash ((splitSlash s).filter (fun seg => decide (¬ (seg = [] ∨ seg = ['.']))))
      else if joinSlash ((splitSlash s).filter (fun seg => decide (¬ (seg = [] ∨ seg = ['.'])))) = []
        then ['.']
      else joinSlash ((splitSlash s).filter (fun seg => decide (¬ (seg = [] ∨ seg = ['.'])))) := by
  unfold Clean
  rw [if_neg hs]
  simp only [foldl_cleanStep_noDotDot _ _ h, List.append_nil, List.reverse_reverse,
    decide_eq_true_eq]

theorem joinSlash_eq_nil_of_real (l : List Str) (hl : ∀ seg ∈ l, seg ≠ [])
    (h : joinSlash l = []) : l = [] := by
  cases l with
  | nil => rfl
  | cons a l =>
    exfalso
    cases l with
    | nil => exact hl a (by simp) h
    | cons b l =>
      rw [joinSlash_cons a _ (by simp)] at h
      simp at h

theorem noDotDot_Clean (s : Str) (h : noDotDot s) : noDotDot (Clean s) := by
  by_cases hs : s = []
  · subst hs
    intro seg hm
    have : seg = ['.'] := by simpa [Clean, splitSlash] using hm
    subst this; decide
  have hF : ∀ seg ∈ (splitSlash s).filter (fun seg => decide (¬ (seg = [] ∨ seg = ['.']))),
      '/' ∉ seg ∧ seg ≠ ['.', '.'] ∧ seg ≠ [] := by
    intro seg hm
    have hm' := List.mem_filter.mp hm
    refine ⟨splitSlash_not_mem s seg hm'.1, h seg hm'.1, ?_⟩
    intro e
    have := hm'.2
    simp [e] at this
  have hJ : ∀ seg ∈ splitSlash (joinSlash
      ((splitSlash s).filter (fun seg => decide (¬ (seg = [] ∨ seg = ['.']))))),
      seg ≠ ['.', '.'] := by
    intro seg hm
    by_cases hne : (splitSlash s).filter (fun seg => decide (¬ (seg = [] ∨ seg = ['.']))) = []
    · rw [hne] at hm
      have : seg = [] := by simpa [joinSlash, splitSlash] using hm
      subst this; decide
    · rw [splitSlash_joinSlash _ hne (fun seg hm => (hF seg hm).1)] at hm
      exact (hF seg hm).2.1
  rw [noDotDot, Clean_noDotDot s hs h]
  by_cases hr : s.head? = some '/'
  · rw [if_pos hr, splitSlash_cons_slash]
    intro seg hm
    rcases List.mem_cons.mp hm with e | e
    · subst e; decide
    · exact hJ seg e
  · rw [if_neg hr]
    by_cases hj : joinSlash
        ((splitSlash s).filter (fun seg => decide (¬ (seg = [] ∨ seg = ['.'])))) = []
    · rw [if_pos hj]
      intro seg hm
      have : seg = ['.'] := by simpa [splitSlash] using hm
      subst this; decide
    · rw [if_neg hj]
      exact hJ

theorem Clean_ne_nil (s : Str) : Clean s ≠ [] := by
  unfold Clean
  by_cases hs : s = []
  · rw [if_pos hs]; simp
  · rw [if_neg hs]
    dsimp only
    split
    · simp
    · split
      · simp
      · assumption

theorem dropWhile_head (f : Char → Bool) (l : Str) :
    l.dropWhile f = [] ∨ ∃ c t, l.dropWhile f = c :: t ∧ f c = false := by
  induction l with
  | nil => left; rfl
  | cons a l ih =>
    by_cases ha : f a = true
    · rw [List.dropWhile_cons_of_pos ha]; exact ih
    · right
      refine ⟨a, l, ?_, by simpa using ha⟩
      rw [List.dropWhile_cons_of_neg ha]

theorem dirPart_decomp (p : Str) :
    ∃ last, p = (p.reverse.dropWhile (fun c => c ≠ '/')).reverse ++ last ∧ '/' ∉ last ∧
      ((p.reverse.dropWhile (fun c => c ≠ '/')).reverse = [] ∨
        ∃ d, (p.reverse.dropWhile (fun c => c ≠ '/')).reverse = d ++ ['/']) := by
  refine ⟨(p.reverse.takeWhile (fun c => c ≠ '/')).reverse, ?_, ?_, ?_⟩
  · rw [← List.reverse_append, List.takeWhile_append_dropWhile, List.reverse_reverse]
  · intro hm
    have hm' := List.mem_reverse.mp hm
    have := List.mem_takeWhile_imp hm'
    simp at this
  · rcases dropWhile_head (fun c => c ≠ '/') p.reverse with h | ⟨c, t, h, hc⟩
    · left; rw [h]; rfl
    · right
      have hc' : c = '/' := by simpa using hc
      subst hc'
      exact ⟨t.reverse, by rw [h]; simp⟩

theorem noDotDot_dirPart (p : Str) (h : noDotDot p) :
    noDotDot (p.reverse.dropWhile (fun c => c ≠ '/')).reverse := by
  obtain ⟨last, h1, h2, h3⟩ := dirPart_decomp p
  rcases h3 with h3 | ⟨d, h3⟩
  · rw [h3]
    intro seg hm
    have : seg = [] := by simpa [splitSlash] using hm
    subst this; decide
  · rw [h3] at h1 ⊢
    have e : splitSlash p = splitSlash d ++ splitSlash last := by
      conv_lhs => rw [h1]
      rw [List.append_assoc]
      exact splitSlash_append_slash d last
    have e2 : splitSlash (d ++ ['/']) = splitSlash d ++ [[]] := splitSlash_append_slash d []
    intro seg hm
    rw [e2] at hm
    rcases List.mem_append.mp hm with hm | hm
    · exact h seg (by rw [e]; exact List.mem_append_left _ hm)
    · have : seg = [] := by simpa using hm
      subst this; decide

theorem noDotDot_Dir (p : Str) (h : noDotDot p) : noDotDot (Dir p) :=
  noDotDot_Clean _ (noDotDot_dirPart p h)

theorem noDotDot_Join_archive (d : Str) (h : noDotDot d) :
    noDotDot (Join d "archive.zip".toList) := by
  unfold Join
  have ha : noDotDot "archive.zip".toList := by decide
  by_cases hd : d = []
  · subst hd
    rw [if_neg (by simp), if_pos (by decide)]
    exact noDotDot_Clean _ ha
  · rw [if_pos hd]
    apply noDotDot_Clean
    intro seg hm
    rw [splitSlash_append_slash] at hm
    rcases List.mem_append.mp hm with hm | hm
    · exact h seg hm
    · exact ha seg hm

theorem extScan_spec (r acc : Str) :
    extScan r acc = [] ∨
      ∃ t rest, r = t ++ '.' :: rest ∧ '/' ∉ t ∧ extScan r acc = '.' :: (t.reverse ++ acc) := by
  induction r generalizing acc with
  | nil => left; rfl
  | cons c r ih =>
    by_cases h1 : c = '/'
    · left; rw [extScan, if_pos h1]
    · by_cases h2 : c = '.'
      · right
        refine ⟨[], r, by rw [h2]; rfl, by simp, ?_⟩
        rw [extScan, if_neg h1, if_pos h2, h2]; rfl
      · rcases ih (c :: acc) with h | ⟨t, rest, e1, e2, e3⟩
        · left; rw [extScan, if_neg h1, if_neg h2]; exact h
        · right
          refine ⟨c :: t, rest, by rw [e1]; rfl, ?_, ?_⟩
          · intro hm
            rcases List.mem_cons.mp hm with e | e
            · exact h1 e.symm
            · exact e2 e
          · rw [extScan, if_neg h1, if_neg h2, e3]; simp

theorem Ext_decomp (p : Str) : ∃ stem, p = stem ++ Ext p ∧ '/' ∉ Ext p := by
  unfold Ext
  rcases extScan_spec p.reverse [] with h | ⟨t, rest, e1, e2, e3⟩
  · rw [h]; exact ⟨p, by simp, by simp⟩
  · rw [e3]
    refine ⟨rest.reverse, ?_, ?_⟩
    · have : p = (t ++ '.' :: rest).reverse := by rw [← e1, List.reverse_reverse]
      rw [this]; simp
    · intro hm
      rcases List.mem_cons.mp hm with e | e
      · exact absurd e (by decide)
      · rw [List.append_nil] at e
        exact e2 (List.mem_reverse.mp e)

theorem noDotDot_replace_ext (stem e : Str) (he : '/' ∉ e) (h : noDotDot (stem ++ e)) :
    noDotDot (stem ++ ".zip".toList) := by
  obtain ⟨init, last, h1, h2⟩ := splitSlash_snoc_form stem
  intro seg hm
  rw [h2 _ (by decide)] at hm
  rcases List.mem_append.mp hm with hm | hm
  · exact h seg (by rw [h2 e he]; exact List.mem_append_left _ hm)
  · have : seg = last ++ ".zip".toList := by simpa using hm
    subst this
    intro e4
    have := congrArg List.length e4
    simp at this

end filepath

/-! ## Lemmas on the output path -/

theorem noDotDot_step1 (p : Str) (h : noDotDot p) :
    noDotDot (if filepath.Base p = "zip".toList ∨ filepath.Base p = "tar".toList then
      filepath.Join (filepath.Dir p) "archive.zip".toList else p) := by
  split
  · exact filepath.noDotDot_Join_archive _ (filepath.noDotDot_Dir p h)
  · exact h

theorem noDotDot_step2 (p : Str) (h : noDotDot p) :
    noDotDot (if p ≠ [] then strings.TrimSuffix p (filepath.Ext p) ++ ".zip".toList else p) := by
  split
  · obtain ⟨stem, h1, h2⟩ := filepath.Ext_decomp p
    have e : strings.TrimSuffix p (filepath.Ext p) = stem := by
      have := strings.TrimSuffix_append stem (filepath.Ext p)
      rw [← h1] at this
      exact this
    rw [e]
    exact filepath.noDotDot_replace_ext stem (filepath.Ext p) h2 (by rw [← h1]; exact h)
  · exact h

theorem leading_slash_form (p : Str) :
    ∃ q, (if ¬ strings.HasPrefix p "/".toList = true then "/".toList ++ p else p) = '/' :: q ∧
      (noDotDot p → noDotDot q) ∧
      (∀ x, p = x ++ ".zip".toList → ∃ y, '/' :: q = y ++ ".zip".toList) := by
  by_cases hp : strings.HasPrefix p "/".toList = true
  · rw [if_neg (not_not.mpr hp)]
    cases p with
    | nil => exact absurd hp (by decide)
    | cons c q =>
      have hc : c = '/' := by
        unfold strings.HasPrefix at hp
        exact (by simpa [List.isPrefixOf] using hp : '/' = c).symm
      subst hc
      refine ⟨q, rfl, ?_, ?_⟩
      · intro h seg hm
        exact h seg (by rw [filepath.splitSlash_cons_slash]; exact List.mem_cons_of_mem _ hm)
      · intro x hx; exact ⟨x, hx⟩
  · rw [if_pos hp]
    refine ⟨p, rfl, fun h => h, ?_⟩
    intro x hx
    exact ⟨'/' :: x, by rw [hx]; rfl⟩

theorem Base_zip (x : Str) :
    ∃ y, '/' ∉ y ∧ filepath.Base (x ++ ".zip".toList) = y ++ ".zip".toList := by
  refine ⟨(x.reverse.takeWhile (fun c => c ≠ '/')).reverse, ?_, ?_⟩
  · intro hm
    have := List.mem_takeWhile_imp (List.mem_reverse.mp hm)
    simp at this
  · unfold filepath.Base
    rw [if_neg (by simp)]
    have e : (x ++ ".zip".toList).reverse = 'p' :: 'i' :: 'z' :: '.' :: x.reverse := by
      rw [List.reverse_append]; rfl
    simp only [e]
    rw [List.dropWhile_cons_of_neg (by decide)]
    rw [List.takeWhile_cons_of_pos (by decide), List.takeWhile_cons_of_pos (by decide),
      List.takeWhile_cons_of_pos (by decide), List.takeWhile_cons_of_pos (by decide)]
    rw [if_neg (by simp)]
    simp

theorem underBits_of_append (r : Str) (hr : r ≠ []) : underBits ("bits/".toList ++ r) := by
  refine ⟨?_, ?_⟩
  · simp [strings.HasPrefix, List.isPrefixOf]
  · have : 0 < r.length := List.length_pos.mpr hr
    simp
    exact this

theorem Join_bits_real (seg : Str) (h0 : '/' ∉ seg) (h1 : seg ≠ []) (h2 : seg ≠ ['.'])
    (h3 : seg ≠ ['.', '.']) : filepath.Join folderBits seg = "bits/".toList ++ seg := by
  unfold filepath.Join
  rw [if_pos (by decide)]
  have hs : filepath.splitSlash (folderBits ++ '/' :: seg) = [folderBits, seg] := by
    rw [filepath.splitSlash_append_slash, filepath.splitSlash_of_not_mem seg h0]
    rfl
  have hn : noDotDot (folderBits ++ '/' :: seg) := by
    intro s hm
    rw [hs] at hm
    rcases List.mem_cons.mp hm with e | e
    · subst e; decide
    · have : s = seg := by simpa using e
      subst this; exact h3
  rw [filepath.Clean_noDotDot _ (by simp [folderBits]) hn, hs]
  rw [if_neg (by simp [folderBits])]
  rw [List.filter_cons_of_pos (by decide),
    List.filter_cons_of_pos (by rw [decide_eq_true_eq]; rintro (h | h) <;> contradiction)]
  rw [List.filter_nil]
  rw [if_neg (by simp [filepath.joinSlash, folderBits])]
  rfl

theorem Join_bits_host (h q : Str) (h0 : '/' ∉ h) (h1 : h ≠ []) (h2 : h ≠ ['.'])
    (h3 : h ≠ ['.', '.']) (hq : noDotDot q) :
    underBits (filepath.Join folderBits (h ++ '/' :: q)) := by
  unfold filepath.Join
  rw [if_pos (by decide)]
  have hs : filepath.splitSlash (folderBits ++ '/' :: (h ++ '/' :: q))
      = folderBits :: h :: filepath.splitSlash q := by
    rw [filepath.splitSlash_append_slash, filepath.splitSlash_append_slash,
      filepath.splitSlash_of_not_mem h h0]
    rfl
  have hn : noDotDot (folderBits ++ '/' :: (h ++ '/' :: q)) := by
    intro s hm
    rw [hs] at hm
    rcases List.mem_cons.mp hm with e | e
    · subst e; decide
    · rcases List.mem_cons.mp e with e | e
      · subst e; exact h3
      · exact hq s e
  rw [filepath.Clean_noDotDot _ (by simp [folderBits]) hn, hs]
  rw [if_neg (by simp [folderBits])]
  rw [List.filter_cons_of_pos (by decide),
    List.filter_cons_of_pos (by rw [decide_eq_true_eq]; rintro (h | h) <;> contradiction)]
  rw [filepath.joinSlash_cons _ _ (by simp)]
  rw [if_neg (by simp [folderBits])]
  have e0 : ∀ X : Str, folderBits ++ '/' :: X = "bits/".toList ++ X := fun _ => rfl
  rw [e0]
  apply underBits_of_append
  intro e
  have := filepath.joinSlash_eq_nil_of_real _ ?_ e
  · simp at this
  · intro seg hm
    rcases List.mem_cons.mp hm with e | e
    · subst e; exact h1
    · have := (List.mem_filter.mp e).2
      intro e'
      simp [e'] at this

theorem Join_ne_nil (a b : Str) (hb : b ≠ []) : filepath.Join a b ≠ [] := by
  unfold filepath.Join
  by_cases ha : a = []
  · rw [if_neg (not_not.mpr ha), if_pos hb]; exact filepath.Clean_ne_nil _
  · rw [if_pos ha]; exact filepath.Clean_ne_nil _

/-- The shape of the result of `migrateBitsOutputPath`: the path is brought to the
form `/q` (the test for the empty path never succeeds), and the result is its
last element when there is no host, the host followed by `/q` otherwise. -/
theorem migrateBitsOutputPath_form (u : url.URL) :
    ∃ q, (noDotDot u.Path → noDotDot q) ∧
      (u.Path ≠ [] → ∃ y, '/' :: q = y ++ ".zip".toList) ∧
      migrateBitsOutputPath u =
        if (if u.Host = "glare.now.sh".toList then "github.com".toList else u.Host) = [] then
          filepath.Base ('/' :: q)
        else
          strings.TrimSuffix
            (if u.Host = "glare.now.sh".toList then "github.com".toList else u.Host)
            "/".toList ++ '/' :: q := by
  unfold migrateBitsOutputPath
  dsimp only [filepath.FromSlash]
  generalize hp1 : (if filepath.Base u.Path = "zip".toList ∨ filepath.Base u.Path = "tar".toList
    then filepath.Join (filepath.Dir u.Path) "archive.zip".toList else u.Path) = p1
  generalize hp2 : (if p1 ≠ [] then strings.TrimSuffix p1 (filepath.Ext p1) ++ ".zip".toList
    else p1) = p2
  obtain ⟨q, hq, hq2, hq3⟩ := leading_slash_form p2
  rw [hq]
  refine ⟨q, ?_, ?_, ?_⟩
  · intro h
    apply hq2
    rw [← hp2]
    apply noDotDot_step2
    rw [← hp1]
    exact noDotDot_step1 _ h
  · intro h
    have h1 : p1 ≠ [] := by
      rw [← hp1]
      split
      · exact Join_ne_nil _ _ (by decide)
      · exact h
    rw [if_pos h1] at hp2
    exact hq3 _ hp2.symm
  · rw [if_neg (List.cons_ne_nil '/' q)]

/-! ## Lemmas on the URL parser -/

namespace url

theorem split_of_not_mem (s : Str) (c : Char) (cutc : Bool) (h : c ∉ s) :
    split s c cutc = (s, []) := by
  unfold split
  have e : s.span (fun d => decide (d ≠ c)) = (s, []) := by
    rw [List.span_eq_take_drop]
    have h1 : s.takeWhile (fun d => decide (d ≠ c)) = s := by
      rw [List.takeWhile_eq_self_iff]
      intro x hx
      have : x ≠ c := fun e => h (e ▸ hx)
      simpa using this
    have h2 : s.dropWhile (fun d => decide (d ≠ c)) = [] := by
      rw [List.dropWhile_eq_nil_iff]
      intro x hx
      have : x ≠ c := fun e => h (e ▸ hx)
      simpa using this
    rw [h1, h2]
  rw [e]

theorem split_append_cons (a b : Str) (c : Char) (h : c ∉ a) :
    split (a ++ c :: b) c false = (a, c :: b) := by
  unfold split
  have e : (a ++ c :: b).span (fun d => decide (d ≠ c)) = (a, c :: b) := by
    rw [List.span_eq_take_drop]
    have hall : ∀ x ∈ a, (fun d => decide (d ≠ c)) x = true := by
      intro x hx
      have : x ≠ c := fun e => h (e ▸ hx)
      simpa using this
    rw [List.takeWhile_append_of_pos hall, List.dropWhile_append_of_pos hall,
      List.takeWhile_cons_of_neg (by simp), List.dropWhile_cons_of_neg (by simp)]
    simp
  rw [e]
  rfl

theorem cutLast_of_not_mem (s : Str) (c : Char) (h : c ∉ s) : cutLast s c = none := by
  unfold cutLast
  have e : s.reverse.span (fun d => decide (d ≠ c)) = (s.reverse, []) := by
    rw [List.span_eq_take_drop]
    have hall : ∀ x ∈ s.reverse, (fun d => decide (d ≠ c)) x = true := by
      intro x hx
      have : x ≠ c := fun e => h (e ▸ List.mem_reverse.mp hx)
      simpa using this
    rw [List.takeWhile_eq_self_iff.mpr hall, List.dropWhile_eq_nil_iff.mpr hall]
  rw [e]

theorem escape_id (s : Str) (mode : Encoding) (h : ∀ c ∈ s, shouldEscape c mode = false) :
    escape s mode = s := by
  unfold escape
  induction s with
  | nil => rfl
  | cons c t ih =>
    rw [List.flatMap_cons, if_neg (by rw [h c (by simp)]; simp),
      ih (fun x hx => h x (List.mem_cons_of_mem _ hx))]
    rfl

theorem unescape_id (mode : Encoding) (s : Str) (h1 : '%' ∉ s)
    (h2 : ∀ c ∈ s, shouldEscape c .encodeHost = false ∨
      (mode ≠ .encodeHost ∧ mode ≠ .encodeZone))
    (h3 : mode ≠ .encodeQueryComponent) : unescape mode s = .ok s := by
  induction s with
  | nil => rfl
  | cons c t ih =>
    have hc : c ≠ '%' := fun e => h1 (by rw [e]; exact List.mem_cons_self _ _)
    have ht := ih (fun hm => h1 (List.mem_cons_of_mem _ hm))
      (fun x hx => h2 x (List.mem_cons_of_mem _ hx))
    have hn : ¬ ((mode = .encodeHost ∨ mode = .encodeZone) ∧ c.toNat < 128 ∧
        shouldEscape c .encodeHost = true) := by
      rintro ⟨hm, -, he⟩
      rcases h2 c (List.mem_cons_self _ _) with e | ⟨e1, e2⟩
      · rw [e] at he; exact absurd he (by simp)
      · rcases hm with hm | hm
        · exact e1 hm
        · exact e2 hm
    unfold unescape
    rw [if_neg hc, if_neg hn, ht]
    dsimp only
    rw [if_neg (by rintro ⟨-, e⟩; exact h3 e)]

theorem mem_unreserved_props :
    ∀ c ∈ unreservedChars,
      c ≠ '%' ∧ c ≠ '#' ∧ c ≠ '?' ∧ c ≠ '/' ∧ c ≠ ':' ∧ c ≠ '@' ∧ c ≠ '[' ∧ c ≠ '*' ∧
      ¬ (c.toNat < 32 || c.toNat = 127) = true ∧
      shouldEscape c .encodeHost = false ∧ shouldEscape c .encodePath = false := by
  decide

end url

namespace url

theorem https_chars (host rest : Str) (hh : unreserved host)
    (hr : ∀ c ∈ rest, c ∈ unreservedChars ∨ c = '/') :
    ∀ c ∈ host ++ '/' :: rest, c ∈ unreservedChars ∨ c = '/' := by
  intro c hc
  rcases List.mem_append.mp hc with h | h
  · exact Or.inl (hh c h)
  · rcases List.mem_cons.mp h with h | h
    · exact Or.inr h
    · exact hr c h

theorem safe_props (c : Char) (h : c ∈ unreservedChars ∨ c = '/') :
    c ≠ '%' ∧ c ≠ '#' ∧ c ≠ '?' ∧ ¬ (c.toNat < 32 || c.toNat = 127) = true ∧
      shouldEscape c .encodePath = false := by
  rcases h with h | h
  · obtain ⟨h1, h2, h3, -, -, -, -, -, h4, -, h5⟩ := mem_unreserved_props c h
    exact ⟨h1, h2, h3, h4, h5⟩
  · subst h; decide

/-- Go `url.Parse` on an `https` URL whose host and path need no escaping: the
three parts are read off as they stand. -/
theorem Parse_https (host rest : Str) (hh : unreserved host)
    (hr : ∀ c ∈ rest, c ∈ unreservedChars ∨ c = '/') :
    Parse ("https://".toList ++ host ++ '/' :: rest)
      = .ok { Scheme := "https".toList, Host := host, Path := '/' :: rest } := by
  have hall := https_chars host rest hh hr
  have e0 : "https://".toList ++ host ++ '/' :: rest
      = 'h' :: 't' :: 't' :: 'p' :: 's' :: ':' :: '/' :: '/' :: (host ++ '/' :: rest) := by
    simp
  have n1 : '#' ∉ "https://".toList ++ host ++ '/' :: rest := by
    rw [e0]
    intro hm
    simp only [List.mem_cons] at hm
    rcases hm with h | h | h | h | h | h | h | h | h
    all_goals first
      | exact absurd h (by decide)
      | exact (safe_props _ (hall _ (by simpa using h))).2.1 rfl
  have n2 : '?' ∉ '/' :: '/' :: (host ++ '/' :: rest) := by
    intro hm
    simp only [List.mem_cons] at hm
    rcases hm with h | h | h
    all_goals first
      | exact absurd h (by decide)
      | exact (safe_props _ (hall _ (by simpa using h))).2.2.1 rfl
  have n3 : stringContainsCTLByte ("https://".toList ++ host ++ '/' :: rest) = false := by
    rw [e0]
    unfold stringContainsCTLByte
    rw [List.any_eq_false]
    intro c hc
    simp only [List.mem_cons] at hc
    rcases hc with h | h | h | h | h | h | h | h | h
    all_goals first
      | (subst h; decide)
      | exact (safe_props _ (hall _ (by simpa using h))).2.2.2.1
  have n4 : getscheme ("https://".toList ++ host ++ '/' :: rest)
      = .ok ("https".toList, '/' :: '/' :: (host ++ '/' :: rest)) := by
    rw [e0]
    simp [getscheme, getschemeLoop]
  have n5 : '/' ∉ host := fun hm => (mem_unreserved_props _ (hh _ hm)).2.2.2.1 rfl
  have n6 : '@' ∉ host := fun hm => (mem_unreserved_props _ (hh _ hm)).2.2.2.2.2.1 rfl
  have n7 : ':' ∉ host := fun hm => (mem_unreserved_props _ (hh _ hm)).2.2.2.2.1 rfl
  have n8 : strings.HasPrefix host ['['] = false := by
    cases host with
    | nil => rfl
    | cons c t =>
      have : c ≠ '[' := (mem_unreserved_props c (hh c (by simp))).2.2.2.2.2.2.1
      simp [strings.HasPrefix, List.isPrefixOf, this]
      exact fun e => this e.symm
  have n9 : unescape .encodeHost host = .ok host := by
    apply unescape_id
    · exact fun hm => (mem_unreserved_props _ (hh _ hm)).1 rfl
    · exact fun c hc => Or.inl (mem_unreserved_props c (hh c hc)).2.2.2.2.2.2.2.2.2.1
    · decide
  have n10 : unescape .encodePath ('/' :: rest) = .ok ('/' :: rest) := by
    apply unescape_id
    · intro hm
      rcases List.mem_cons.mp hm with h | h
      · exact absurd h (by decide)
      · exact (safe_props _ (hr _ h)).1 rfl
    · exact fun c _ => Or.inr ⟨by decide, by decide⟩
    · decide
  have n11 : escape ('/' :: rest) .encodePath = '/' :: rest := by
    apply escape_id
    intro c hc
    rcases List.mem_cons.mp hc with h | h
    · subst h; decide
    · exact (safe_props _ (hr _ h)).2.2.2.2
  have n12 : parseAuthority host = .ok (none, host) := by
    unfold parseAuthority
    rw [cutLast_of_not_mem host '@' n6]
    dsimp only
    unfold parseHost
    rw [n8]
    simp only [Bool.false_eq_true, ↓reduceIte]
    rw [cutLast_of_not_mem host ':' n7]
    dsimp only
    rw [n9]
  unfold Parse
  rw [split_of_not_mem _ '#' true n1]
  dsimp only
  unfold parse
  rw [n3, n4]
  dsimp only
  rw [split_of_not_mem _ '?' true n2]
  have fq : (strings.HasSuffix ('/' :: '/' :: (host ++ '/' :: rest)) ['?'] &&
      decide (List.count '?' ('/' :: '/' :: (host ++ '/' :: rest)) = 1)) = false := by
    rw [List.count_eq_zero.mpr n2]; simp
  have f1 : ¬ ("https://".toList ++ host ++ '/' :: rest = ['*']) := by
    rw [e0]; simp
  have f2 : toLower "https".toList = "https".toList := by decide
  have f3 : strings.HasPrefix ('/' :: '/' :: (host ++ '/' :: rest)) ['/'] = true := by
    simp [strings.HasPrefix]
  have f4 : strings.HasPrefix ('/' :: '/' :: (host ++ '/' :: rest)) ['/', '/'] = true := by
    simp [strings.HasPrefix]
  have f5 : List.drop 2 ('/' :: '/' :: (host ++ '/' :: rest)) = host ++ '/' :: rest := rfl
  have f6 : "https".toList ≠ [] := by decide
  simp only [fq, f1, f2, f3, f4, f5, f6, Bool.false_eq_true, ↓reduceIte, not_true_eq_false,
    false_and, and_false, ne_eq, not_false_eq_true, true_or, true_and, and_self,
    split_append_cons host rest '/' n5, n12, setPath, n10, n11]

end url

namespace url

/-- Go `(*URL).String` on an `https` URL without userinfo whose host and path
need no escaping. -/
theorem String_https (host rest : Str) (hh : unreserved host) (hne : host ≠ [])
    (hr : ∀ c ∈ rest, c ∈ unreservedChars ∨ c = '/') :
    URL.String { Scheme := "https".toList, Host := host, Path := '/' :: rest }
      = "https://".toList ++ host ++ '/' :: rest := by
  have n1 : escape host .encodeHost = host :=
    escape_id host _ (fun c hc => (mem_unreserved_props c (hh c hc)).2.2.2.2.2.2.2.2.2.1)
  have n2 : escape ('/' :: rest) .encodePath = '/' :: rest := by
    apply escape_id
    intro c hc
    rcases List.mem_cons.mp hc with h | h
    · subst h; decide
    · exact (safe_props _ (hr _ h)).2.2.2.2
  have n3 : ∀ sch : Str, URL.EscapedPath { Scheme := sch, Host := host, Path := '/' :: rest }
      = '/' :: rest := by
    intro sch
    unfold URL.EscapedPath
    simp [n2]
  unfold URL.String
  simp [n1, n3, hne, Userinfo.String]

end url

theorem mem_append_safe (a b : Str) (ha : ∀ c ∈ a, c ∈ unreservedChars ∨ c = '/')
    (hb : ∀ c ∈ b, c ∈ unreservedChars ∨ c = '/') :
    ∀ c ∈ a ++ b, c ∈ unreservedChars ∨ c = '/' := by
  intro c hc
  rcases List.mem_append.mp hc with h | h
  · exact ha c h
  · exact hb c h

theorem safe_of_unreserved (a : Str) (ha : unreserved a) :
    ∀ c ∈ a, c ∈ unreservedChars ∨ c = '/' := fun c hc => Or.inl (ha c hc)

/-! ## C1: an error after the digest returns a modified state -/

/-- C1 (the code departs from the claim): the source `https://example.com/repo`
needs materialization; the session and the digest `abc` succeed, the
creation of the directory fails.  The call returns that error together with a
state whose attribute map has gained the key `source_code_hash`: the map is
not the map the state had before the call. -/
theorem C1_error_after_digest_keeps_hash :
    migrateBitsStateV2toV3
        (some { ID := "x".toList,
                Attributes := [("url".toList, "https://example.com/repo".toList)] })
        { zipperManager := none, createSession := fun _ _ => none, sha1 := .ok "abc".toList,
          mkdirAll := fun _ => some "permission denied".toList, zip := none,
          create := fun _ => none, copy := none }
      = .returned
          (some { ID := "x".toList,
                  Attributes := [("url".toList, "https://example.com/repo".toList),
                                 ("source_code_hash".toList, "abc".toList)] })
          (some "permission denied".toList)
          [Effect.createSession "https://example.com/repo".toList [], Effect.sha1,
           Effect.mkdirAll "bits/example.com".toList] ∧
      Attrs.get [("url".toList, "https://example.com/repo".toList)] "source_code_hash".toList
        = none := by
  decide

/-! ## C2: resolution priority -/

/-- C2: the resolution priority is direct URL, then git, then GitHub release.
With a non-empty raw URL the git and GitHub maps are not looked at; with an
empty raw URL and a non-empty git map the GitHub map is not looked at. -/
theorem C2_resolution_priority (rawUrl : Str) (git github : Attrs) :
    (rawUrl ≠ [] → migrateBitsUrl rawUrl git github = migrateBitsUrl rawUrl [] []) ∧
      (git ≠ [] → migrateBitsUrl [] git github = migrateBitsUrl [] git []) := by
  constructor
  · intro h
    unfold migrateBitsUrl
    rw [if_pos h, if_pos h]
  · intro h
    have h' : git.length > 0 := List.length_pos.mpr h
    unfold migrateBitsUrl
    simp only [ne_eq, not_true_eq_false, ↓reduceIte, h']

/-- C2 at the input of the claim: the raw URL `http://a/x.zip` with a git block
and a release block also present resolves to `http://a/x.zip`. -/
theorem C2_resolution_priority_witness :
    ∃ u, migrateBitsUrl "http://a/x.zip".toList
          [("url".toList, "git@github.com:o/r.git".toList), ("branch".toList, "master".toList),
           ("tag".toList, []), ("user".toList, []), ("password".toList, []), ("key".toList, [])]
          [("owner".toList, "o".toList), ("repo".toList, "r".toList), ("user".toList, []),
           ("password".toList, []), ("version".toList, "v1".toList),
           ("filename".toList, "zipball".toList)]
        = .ok (some u) ∧ u.String = "http://a/x.zip".toList :=
  ⟨{ Scheme := "http".toList, Host := "a".toList, Path := "/x.zip".toList },
    ((C2_resolution_priority "http://a/x.zip".toList _ _).1 (by decide)).trans rfl,
    by decide⟩

/-! ## C3: the decision table of the GitHub release -/

/-- C3 (as amended): with an empty raw URL and an empty git map, a release
descriptor whose owner, repo, version and filename need no escaping resolves
to a URI of scheme `https` whose host and path are those of the URL of the
decision table; without a user the URI has no userinfo and its text is the
URL of the table, with a user it carries the userinfo (user, password). -/
theorem C3_release_table (gh : Attrs) (v f o r user password : Str)
    (hv : gh.get "version".toList = some v) (hf : gh.get "filename".toList = some f)
    (ho : gh.get "owner".toList = some o) (hr : gh.get "repo".toList = some r)
    (hu : gh.get "user".toList = some user) (hp : gh.get "password".toList = some password)
    (uv : unreserved v) (uf : unreserved f) (uo : unreserved o) (ur : unreserved r) :
    ∃ path,
      migrateBitsUrl [] [] gh
        = .ok (some
            { Scheme := "https".toList,
              Host := if v ≠ [] then "github.com".toList else "glare.now.sh".toList,
              Path := path,
              User := if user = [] then none else some (url.UserPassword user password) }) ∧
      url.URL.String
          { Scheme := "https".toList,
            Host := if v ≠ [] then "github.com".toList else "glare.now.sh".toList,
            Path := path }
        = githubReleaseTemplate v f o r := by
  have hne : ¬ gh.length = 0 := by
    intro e
    rw [List.length_eq_zero.mp e] at hv
    exact absurd hv (by simp [Attrs.get])
  have key : ∀ (H rest : Str), unreserved H → H ≠ [] →
      (∀ c ∈ rest, c ∈ unreservedChars ∨ c = '/') →
      ∃ path,
        (match url.Parse ("https://".toList ++ H ++ '/' :: rest) with
          | .error e => (.error (.error e) : Except Fault (Option url.URL))
          | .ok u =>
            match assertString gh "user".toList with
            | .error f => .error f
            | .ok user =>
              if user ≠ [] then
                match assertString gh "password".toList with
                | .error f => .error f
                | .ok password =>
                  .ok (some { u with User := some (url.UserPassword user password) })
              else .ok (some u))
          = .ok (some
              { Scheme := "https".toList, Host := H, Path := path,
                User := if user = [] then none else some (url.UserPassword user password) }) ∧
        url.URL.String { Scheme := "https".toList, Host := H, Path := path }
          = "https://".toList ++ H ++ '/' :: rest := by
    intro H rest hH hHne hrest
    refine ⟨'/' :: rest, ?_, url.String_https H rest hH hHne hrest⟩
    rw [url.Parse_https H rest hH hrest]
    unfold assertString
    rw [hu, hp]
    dsimp only
    by_cases hu0 : user = []
    · rw [if_neg (not_not.mpr hu0), if_pos hu0]
    · rw [if_pos hu0, if_neg hu0]
  have hg : unreserved "github.com".toList := by decide
  have hl : unreserved "glare.now.sh".toList := by decide
  have s1 : ∀ c ∈ "/archive/".toList, c ∈ unreservedChars ∨ c = '/' := by decide
  have s2 : ∀ c ∈ ".zip".toList, c ∈ unreservedChars ∨ c = '/' := by decide
  have s3 : ∀ c ∈ ".tar.gz".toList, c ∈ unreservedChars ∨ c = '/' := by decide
  have s4 : ∀ c ∈ "/releases/download/".toList, c ∈ unreservedChars ∨ c = '/' := by decide
  have s5 : ∀ c ∈ "/".toList, c ∈ unreservedChars ∨ c = '/' := by decide
  have s6 : ∀ c ∈ "zip".toList, c ∈ unreservedChars ∨ c = '/' := by decide
  have s7 : ∀ c ∈ "tar".toList, c ∈ unreservedChars ∨ c = '/' := by decide
  have so := safe_of_unreserved o uo
  have sr := safe_of_unreserved r ur
  have sv := safe_of_unreserved v uv
  have sf := safe_of_unreserved f uf
  unfold migrateBitsUrl
  rw [if_neg (by simp), if_neg (by simp), if_neg hne]
  unfold assertString
  rw [hv, hf, ho, hr]
  dsimp only
  unfold githubReleaseTemplate
  by_cases hv0 : v = []
  · have hv0' : ¬ (v ≠ []) := not_not.mpr hv0
    simp only [hv0', false_and, ↓reduceIte]
    by_cases hz : f = "zipball".toList
    · rw [if_pos hz, if_pos hz]
      have e : "https://glare.now.sh/".toList ++ o ++ "/".toList ++ r ++ "/zip".toList
          = "https://".toList ++ "glare.now.sh".toList
            ++ '/' :: (o ++ "/".toList ++ r ++ "/".toList ++ "zip".toList) := by simp
      rw [e]
      exact key _ _ hl (by decide)
        (mem_append_safe _ _ (mem_append_safe _ _ (mem_append_safe _ _
          (mem_append_safe _ _ so s5) sr) s5) s6)
    · rw [if_neg hz, if_neg hz]
      by_cases ht : f = "tarball".toList
      · rw [if_pos ht, if_pos ht]
        have e : "https://glare.now.sh/".toList ++ o ++ "/".toList ++ r ++ "/tar".toList
            = "https://".toList ++ "glare.now.sh".toList
              ++ '/' :: (o ++ "/".toList ++ r ++ "/".toList ++ "tar".toList) := by simp
        rw [e]
        exact key _ _ hl (by decide)
          (mem_append_safe _ _ (mem_append_safe _ _ (mem_append_safe _ _
            (mem_append_safe _ _ so s5) sr) s5) s7)
      · rw [if_neg ht, if_neg ht]
        have e : "https://glare.now.sh/".toList ++ o ++ "/".toList ++ r ++ "/".toList ++ f
            = "https://".toList ++ "glare.now.sh".toList
              ++ '/' :: (o ++ "/".toList ++ r ++ "/".toList ++ f) := by simp
        rw [e]
        exact key _ _ hl (by decide)
          (mem_append_safe _ _ (mem_append_safe _ _ (mem_append_safe _ _
            (mem_append_safe _ _ so s5) sr) s5) sf)
  · have hv0' : v ≠ [] := hv0
    simp only [hv0', true_and, ↓reduceIte, ne_eq, not_false_eq_true]
    by_cases hz : f = "zipball".toList
    · rw [if_pos hz, if_pos hz]
      have e : "https://github.com/".toList ++ o ++ "/".toList ++ r ++ "/archive/".toList ++ v
            ++ ".zip".toList
          = "https://".toList ++ "github.com".toList
            ++ '/' :: (o ++ "/".toList ++ r ++ "/archive/".toList ++ v ++ ".zip".toList) := by
        simp
      rw [e]
      exact key _ _ hg (by decide)
        (mem_append_safe _ _ (mem_append_safe _ _ (mem_append_safe _ _ (mem_append_safe _ _
          (mem_append_safe _ _ so s5) sr) s1) sv) s2)
    · rw [if_neg hz, if_neg hz]
      by_cases ht : f = "tarball".toList
      · rw [if_pos ht, if_pos ht]
        have e : "https://github.com/".toList ++ o ++ "/".toList ++ r ++ "/archive/".toList ++ v
              ++ ".tar.gz".toList
            = "https://".toList ++ "github.com".toList
              ++ '/' :: (o ++ "/".toList ++ r ++ "/archive/".toList ++ v ++ ".tar.gz".toList) := by
          simp
        rw [e]
        exact key _ _ hg (by decide)
          (mem_append_safe _ _ (mem_append_safe _ _ (mem_append_safe _ _ (mem_append_safe _ _
            (mem_append_safe _ _ so s5) sr) s1) sv) s3)
      · rw [if_neg ht, if_neg ht]
        have e : "https://github.com/".toList ++ o ++ "/".toList ++ r
              ++ "/releases/download/".toList ++ v ++ "/".toList ++ f
            = "https://".toList ++ "github.com".toList
              ++ '/' :: (o ++ "/".toList ++ r ++ "/releases/download/".toList ++ v
                ++ "/".toList ++ f) := by
          simp
        rw [e]
        exact key _ _ hg (by decide)
          (mem_append_safe _ _ (mem_append_safe _ _ (mem_append_safe _ _ (mem_append_safe _ _
            (mem_append_safe _ _ (mem_append_safe _ _ so s5) sr) s4) sv) s5) sf)

/-- C3 at the two inputs of the claim: (`v1.0`, `zipball`, `o`, `r`) gives
`https://github.com/o/r/archive/v1.0.zip`, and (empty version, `tarball`, `o`,
`r`) gives `https://glare.now.sh/o/r/tar`. -/
theorem C3_release_table_witness :
    (∃ path,
      migrateBitsUrl [] []
          [("owner".toList, "o".toList), ("repo".toList, "r".toList), ("user".toList, []),
           ("password".toList, []), ("version".toList, "v1.0".toList),
           ("filename".toList, "zipball".toList)]
        = .ok (some { Scheme := "https".toList, Host := "github.com".toList, Path := path }) ∧
      url.URL.String { Scheme := "https".toList, Host := "github.com".toList, Path := path }
        = "https://github.com/o/r/archive/v1.0.zip".toList) ∧
    (∃ path,
      migrateBitsUrl [] []
          [("owner".toList, "o".toList), ("repo".toList, "r".toList), ("user".toList, []),
           ("password".toList, []), ("version".toList, []),
           ("filename".toList, "tarball".toList)]
        = .ok (some { Scheme := "https".toList, Host := "glare.now.sh".toList, Path := path }) ∧
      url.URL.String { Scheme := "https".toList, Host := "glare.now.sh".toList, Path := path }
        = "https://glare.now.sh/o/r/tar".toList) :=
  ⟨C3_release_table _ "v1.0".toList "zipball".toList "o".toList "r".toList [] []
      rfl rfl rfl rfl rfl rfl (by decide) (by decide)
      (by decide) (by decide),
    C3_release_table _ [] "tarball".toList "o".toList "r".toList [] []
      rfl rfl rfl rfl rfl rfl (by decide) (by decide)
      (by decide) (by decide)⟩

/-- C3 (the claim as stated fails): the descriptor (`v1.0`, `zipball`, `o`, `r`)
with user `U` and password `P` resolves to `https://U:P@github.com/o/r/archive/v1.0.zip`,
which is not the URL `https://github.com/o/r/archive/v1.0.zip` of the table. -/
theorem C3_user_changes_the_url :
    migrateBitsUrl [] []
        [("owner".toList, "o".toList), ("repo".toList, "r".toList), ("user".toList, "U".toList),
         ("password".toList, "P".toList), ("version".toList, "v1.0".toList),
         ("filename".toList, "zipball".toList)]
      = .ok (some { Scheme := "https".toList,
                    User := some (url.UserPassword "U".toList "P".toList),
                    Host := "github.com".toList, Path := "/o/r/archive/v1.0.zip".toList }) ∧
    url.URL.String
        { Scheme := "https".toList, User := some (url.UserPassword "U".toList "P".toList),
          Host := "github.com".toList, Path := "/o/r/archive/v1.0.zip".toList }
      = "https://U:P@github.com/o/r/archive/v1.0.zip".toList ∧
    githubReleaseTemplate "v1.0".toList "zipball".toList "o".toList "r".toList
      = "https://github.com/o/r/archive/v1.0.zip".toList ∧
    "https://U:P@github.com/o/r/archive/v1.0.zip".toList
      ≠ "https://github.com/o/r/archive/v1.0.zip".toList := by
  refine ⟨rfl, by decide, by decide, by decide⟩

/-! ## C4: the direct reference to a remote zip -/

/-- C4 (as amended): for a non-empty state whose `url` is non-empty and parses to
a URL with scheme `http` or `https` and a path of extension `.zip`, with no
`add_content` entry, the migration succeeds without any external call; the
attribute `path` of the result is the parsed URL printed back (`u.String()`),
and the result has no `source_code_hash` when the input had none. -/
theorem C4_direct_zip_reference (st : InstanceState) (w : World) (raw : Str) (u : url.URL)
    (gv ghv av : List (Option Attrs)) (hID : st.ID ≠ [])
    (hurl : st.Attributes.get "url".toList = some raw) (hraw : raw ≠ [])
    (hgit : schema.readListField st.Attributes "git".toList schema.gitFields = .ok gv)
    (hgh : schema.readListField st.Attributes "github_release".toList schema.githubFields
      = .ok ghv)
    (hadd : schema.readListField st.Attributes "add_content".toList schema.addContentFields
      = .ok av)
    (hnone : getListOfStructs av = [])
    (hparse : url.Parse (strings.TrimPrefix raw "file://".toList) = .ok u)
    (hscheme : u.Scheme = "http".toList ∨ u.Scheme = "https".toList)
    (hext : filepath.Ext u.Path = ".zip".toList) :
    ∃ s', migrateBitsStateV2toV3 (some st) w = .returned (some s') none [] ∧
      s'.ID = st.ID ∧
      s'.Attributes.get "path".toList = some u.String ∧
      (st.Attributes.get "source_code_hash".toList = none →
        s'.Attributes.get "source_code_hash".toList = none) := by
  have hE : ¬ InstanceState.Empty (some st) = true := by simpa [InstanceState.Empty] using hID
  have hm : migrateBitsUrl raw ((getListOfStructs gv).headD []) ((getListOfStructs ghv).headD [])
      = .ok (some u) := by
    unfold migrateBitsUrl
    rw [if_pos hraw, hparse]
  refine ⟨{ st with Attributes :=
      migrateBitsDeleteAttr (st.Attributes.set "path".toList u.String) }, ?_, rfl, ?_, ?_⟩
  · unfold migrateBitsStateV2toV3
    simp only [schema.readString]
    rw [if_neg hE, hgit, hgh, hadd, hurl]
    dsimp only
    rw [hnone, if_neg (by simp)]
    simp only [Option.getD_some]
    rw [hm]
    dsimp only
    rw [if_pos ⟨hscheme, hext⟩]
  · show Attrs.get (migrateBitsDeleteAttr _) _ = _
    rw [get_migrateBitsDeleteAttr, if_neg (by decide), Attrs.get_set, if_pos rfl]
  · intro h0
    show Attrs.get (migrateBitsDeleteAttr _) _ = _
    rw [get_migrateBitsDeleteAttr, if_neg (by decide), Attrs.get_set, if_neg (by decide), h0]

/-- C4 at the input of the claim: `https://example.com/app.zip` is stored
unchanged as `path`, and nothing is fetched even in a world where every
external call would fail. -/
theorem C4_direct_zip_reference_witness :
    ∃ s', migrateBitsStateV2toV3
        (some { ID := "x".toList,
                Attributes := [("url".toList, "https://example.com/app.zip".toList)] })
        { zipperManager := some "no".toList, createSession := fun _ _ => some "no".toList,
          sha1 := .error "no".toList, mkdirAll := fun _ => some "no".toList,
          zip := some "no".toList, create := fun _ => some "no".toList,
          copy := some "no".toList }
        = .returned (some s') none [] ∧
      s'.ID = "x".toList ∧
      s'.Attributes.get "path".toList = some "https://example.com/app.zip".toList ∧
      (Attrs.get [("url".toList, "https://example.com/app.zip".toList)]
          "source_code_hash".toList = none →
        s'.Attributes.get "source_code_hash".toList = none) :=
  C4_direct_zip_reference
    { ID := "x".toList, Attributes := [("url".toList, "https://example.com/app.zip".toList)] }
    _ "https://example.com/app.zip".toList
    { Scheme := "https".toList, Host := "example.com".toList, Path := "/app.zip".toList }
    [] [] [] (by decide) rfl (by decide) rfl rfl rfl rfl rfl (by decide) (by decide)

/-- C4 (the claim as stated fails): three direct URLs of scheme `https` whose
path has the extension `.zip`.  The migration takes the direct-reference
branch and stores the parsed URL printed back, which is not the input:
`https://example.com/app.zip#` loses its empty fragment, in
`https://example.com/my app.zip` the space is escaped, and the scheme of
`HTTPS://example.com/app.zip` is lowered. -/
theorem C4_path_is_not_always_the_input :
    (migrateBitsStateV2toV3
        (some { ID := "x".toList,
                Attributes := [("url".toList, "https://example.com/app.zip#".toList)] })
        { zipperManager := none, createSession := fun _ _ => none, sha1 := .ok "abc".toList,
          mkdirAll := fun _ => none, zip := none, create := fun _ => none, copy := none }
      = .returned
          (some { ID := "x".toList,
                  Attributes := [("path".toList, "https://example.com/app.zip".toList)] })
          none [] ∧
      "https://example.com/app.zip".toList ≠ "https://example.com/app.zip#".toList) ∧
    (migrateBitsStateV2toV3
        (some { ID := "x".toList,
                Attributes := [("url".toList, "https://example.com/my app.zip".toList)] })
        { zipperManager := none, createSession := fun _ _ => none, sha1 := .ok "abc".toList,
          mkdirAll := fun _ => none, zip := none, create := fun _ => none, copy := none }
      = .returned
          (some { ID := "x".toList,
                  Attributes := [("path".toList, "https://example.com/my%20app.zip".toList)] })
          none [] ∧
      "https://example.com/my%20app.zip".toList ≠ "https://example.com/my app.zip".toList) ∧
    (migrateBitsStateV2toV3
        (some { ID := "x".toList,
                Attributes := [("url".toList, "HTTPS://example.com/app.zip".toList)] })
        { zipperManager := none, createSession := fun _ _ => none, sha1 := .ok "abc".toList,
          mkdirAll := fun _ => none, zip := none, create := fun _ => none, copy := none }
      = .returned
          (some { ID := "x".toList,
                  Attributes := [("path".toList, "https://example.com/app.zip".toList)] })
          none [] ∧
      "https://example.com/app.zip".toList ≠ "HTTPS://example.com/app.zip".toList) := by
  decide

/-! ## C5: the output path and the directory bits -/

/-- C5 (as amended): the local output path lies under `bits` (it is `bits/`
followed by a non-empty remainder) when the URI has no host and a non-empty
path, and when it has a host that holds no separator and is neither `.` nor
`..` and a path without `..` element (the path may be empty). -/
theorem C5_output_under_bits (u : url.URL)
    (h : (u.Host = [] ∧ u.Path ≠ []) ∨
      (u.Host ≠ [] ∧ '/' ∉ u.Host ∧ u.Host ≠ ['.'] ∧ u.Host ≠ ['.', '.'] ∧ noDotDot u.Path)) :
    underBits (filepath.Join folderBits (migrateBitsOutputPath u)) := by
  obtain ⟨q, hq1, hq2, hq3⟩ := migrateBitsOutputPath_form u
  rw [hq3]
  rcases h with ⟨h1, h2⟩ | ⟨h1, h2, h3, h4, h5⟩
  · have e : (if u.Host = "glare.now.sh".toList then "github.com".toList else u.Host) = [] := by
      rw [h1]; decide
    rw [e, if_pos rfl]
    obtain ⟨y, hy⟩ := hq2 h2
    rw [hy]
    obtain ⟨z, hz1, hz2⟩ := Base_zip y
    rw [hz2, Join_bits_real (z ++ ".zip".toList)]
    · exact underBits_of_append _ (by simp)
    · intro hm
      rcases List.mem_append.mp hm with e | e
      · exact hz1 e
      · exact absurd e (by decide)
    · simp
    · intro e; have := congrArg List.length e; simp at this
    · intro e; have := congrArg List.length e; simp at this
  · by_cases hg : u.Host = "glare.now.sh".toList
    · have e : (if u.Host = "glare.now.sh".toList then "github.com".toList else u.Host)
          = "github.com".toList := by rw [if_pos hg]
      rw [e, if_neg (by decide), strings.TrimSuffix_slash_of_not_mem _ (by decide)]
      exact Join_bits_host _ q (by decide) (by decide) (by decide) (by decide) (hq1 h5)
    · have e : (if u.Host = "glare.now.sh".toList then "github.com".toList else u.Host)
          = u.Host := by rw [if_neg hg]
      rw [e, if_neg h1, strings.TrimSuffix_slash_of_not_mem _ h2]
      exact Join_bits_host _ q h2 h1 h3 h4 (hq1 h5)

/-- C5 at the input of the claim: `https://example.com/repo` is written to
`bits/example.com/repo.zip`. -/
theorem C5_output_under_bits_witness :
    ((({ Scheme := "https".toList, Host := "example.com".toList, Path := "/repo".toList }
          : url.URL).Host = [] ∧
        ({ Scheme := "https".toList, Host := "example.com".toList, Path := "/repo".toList }
          : url.URL).Path ≠ []) ∨
      ("example.com".toList ≠ [] ∧ '/' ∉ "example.com".toList ∧ "example.com".toList ≠ ['.'] ∧
        "example.com".toList ≠ ['.', '.'] ∧ noDotDot "/repo".toList)) ∧
    filepath.Join folderBits
        (migrateBitsOutputPath
          { Scheme := "https".toList, Host := "example.com".toList, Path := "/repo".toList })
      = "bits/example.com/repo.zip".toList ∧
    underBits (filepath.Join folderBits
        (migrateBitsOutputPath
          { Scheme := "https".toList, Host := "example.com".toList, Path := "/repo".toList })) :=
  ⟨by decide, by decide, C5_output_under_bits _ (by decide)⟩

/-- C5 (the claim as stated fails): three URIs that need materialization and
whose output path is not under `bits`.  For `https://example.com/../../etc/passwd`
it is `etc/passwd.zip`, for `http://../x` it is `x.zip`, and for the URI with
neither host nor path (the raw URL `file://`) it is `bits` itself.  The last part
runs the whole migration on the first of them: the archive is created at
`etc/passwd.zip`, and that is the value of the attribute `path`. -/
theorem C5_output_escapes_bits :
    migrateBitsUrl "https://example.com/../../etc/passwd".toList [] []
      = .ok (some { Scheme := "https".toList, Host := "example.com".toList,
                    Path := "/../../etc/passwd".toList }) ∧
    filepath.Ext "/../../etc/passwd".toList ≠ ".zip".toList ∧
    migrateBitsUrl "http://../x".toList [] []
      = .ok (some { Scheme := "http".toList, Host := "..".toList, Path := "/x".toList }) ∧
    filepath.Ext "/x".toList ≠ ".zip".toList ∧
    migrateBitsUrl "file://".toList [] [] = .ok (some {}) ∧
    filepath.Join folderBits
        (migrateBitsOutputPath
          { Scheme := "https".toList, Host := "example.com".toList,
            Path := "/../../etc/passwd".toList })
      = "etc/passwd.zip".toList ∧
    filepath.Join folderBits
        (migrateBitsOutputPath
          { Scheme := "http".toList, Host := "..".toList, Path := "/x".toList })
      = "x.zip".toList ∧
    filepath.Join folderBits (migrateBitsOutputPath {}) = "bits".toList ∧
    ¬ underBits "etc/passwd.zip".toList ∧ ¬ underBits "x.zip".toList ∧
    ¬ underBits "bits".toList ∧
    migrateBitsStateV2toV3
        (some { ID := "x".toList,
                Attributes := [("url".toList, "https://example.com/../../etc/passwd".toList)] })
        { zipperManager := none, createSession := fun _ _ => none, sha1 := .ok "abc".toList,
          mkdirAll := fun _ => none, zip := none, create := fun _ => none, copy := none }
      = .returned
          (some { ID := "x".toList,
                  Attributes := [("source_code_hash".toList, "abc".toList),
                                 ("path".toList, "etc/passwd.zip".toList)] })
          none
          [Effect.createSession "https://example.com/../../etc/passwd".toList [], Effect.sha1,
           Effect.mkdirAll "etc".toList, Effect.zip, Effect.create "etc/passwd.zip".toList,
           Effect.copy "etc/passwd.zip".toList, Effect.closeFile, Effect.closeZip] := by
  refine ⟨rfl, by decide, rfl, by decide, rfl, by decide, by decide, by decide, by decide,
    by decide, by decide, by decide⟩

/-! ## C6: the legacy keys after a successful migration -/

/-- C6 (as amended): when the migration of a non-empty state returns without
error, either no source variant was populated (the raw URL, the git map and
the release map are all empty) and the state is returned as it was, or the
returned attribute map has no key `url`, no key `add_content`, and no key that
begins with `git.` or with `github_release.`. -/
theorem C6_legacy_keys_removed (st : InstanceState) (w : World) (s' : InstanceState)
    (tr : List Effect) (hID : st.ID ≠ [])
    (h : migrateBitsStateV2toV3 (some st) w = .returned (some s') none tr) :
    (s' = st ∧ ∃ gv ghv,
        schema.readListField st.Attributes "git".toList schema.gitFields = .ok gv ∧
        schema.readListField st.Attributes "github_release".toList schema.githubFields = .ok ghv ∧
        (st.Attributes.get "url".toList).getD [] = [] ∧
        (getListOfStructs gv).headD [] = [] ∧ (getListOfStructs ghv).headD [] = []) ∨
      (s'.Attributes.get "url".toList = none ∧
        s'.Attributes.get "add_content".toList = none ∧
        ∀ k, strings.HasPrefix k "git.".toList = true ∨
              strings.HasPrefix k "github_release.".toList = true →
            s'.Attributes.get k = none) := by
  rcases returned_ok_cases st w s' tr hID h with h1 | ⟨m, hm⟩
  · exact Or.inl h1
  · right
    rw [hm]
    refine ⟨?_, ?_, ?_⟩
    · rw [get_migrateBitsDeleteAttr, if_pos (Or.inr (Or.inl rfl))]
    · rw [get_migrateBitsDeleteAttr, if_pos (Or.inl rfl)]
    · intro k hk
      rw [get_migrateBitsDeleteAttr, if_pos (Or.inr (Or.inr hk))]

/-- C6 at a concrete state with a git block: after the successful
materialization none of the legacy keys is left. -/
theorem C6_legacy_keys_removed_witness :
    migrateBitsStateV2toV3
        (some { ID := "x".toList,
                Attributes := [("git.#".toList, "1".toList),
                               ("git.0.url".toList, "git@github.com:o/r.git".toList),
                               ("git.0.branch".toList, "master".toList),
                               ("name".toList, "n".toList)] })
        { zipperManager := none, createSession := fun _ _ => none, sha1 := .ok "abc".toList,
          mkdirAll := fun _ => none, zip := none, create := fun _ => none, copy := none }
        = .returned
            (some { ID := "x".toList,
                    Attributes := [("name".toList, "n".toList),
                                   ("source_code_hash".toList, "abc".toList),
                                   ("path".toList, "bits/github.com/o/r.zip".toList)] })
            none
            [Effect.createSession "ssh://git@github.com/o/r.git#master".toList [], Effect.sha1,
             Effect.mkdirAll "bits/github.com/o".toList, Effect.zip,
             Effect.create "bits/github.com/o/r.zip".toList,
             Effect.copy "bits/github.com/o/r.zip".toList, Effect.closeFile, Effect.closeZip] ∧
      ∀ k, strings.HasPrefix k "git.".toList = true ∨
            strings.HasPrefix k "github_release.".toList = true →
          Attrs.get [("name".toList, "n".toList), ("source_code_hash".toList, "abc".toList),
                     ("path".toList, "bits/github.com/o/r.zip".toList)] k = none := by
  refine ⟨by decide, ?_⟩
  rcases C6_legacy_keys_removed _ _ _ _ (by decide)
      (show migrateBitsStateV2toV3
        (some { ID := "x".toList,
                Attributes := [("git.#".toList, "1".toList),
                               ("git.0.url".toList, "git@github.com:o/r.git".toList),
                               ("git.0.branch".toList, "master".toList),
                               ("name".toList, "n".toList)] })
        { zipperManager := none, createSession := fun _ _ => none, sha1 := .ok "abc".toList,
          mkdirAll := fun _ => none, zip := none, create := fun _ => none, copy := none }
        = .returned
            (some { ID := "x".toList,
                    Attributes := [("name".toList, "n".toList),
                                   ("source_code_hash".toList, "abc".toList),
                                   ("path".toList, "bits/github.com/o/r.zip".toList)] })
            none
            [Effect.createSession "ssh://git@github.com/o/r.git#master".toList [], Effect.sha1,
             Effect.mkdirAll "bits/github.com/o".toList, Effect.zip,
             Effect.create "bits/github.com/o/r.zip".toList,
             Effect.copy "bits/github.com/o/r.zip".toList, Effect.closeFile, Effect.closeZip]
        by decide) with ⟨h1, -⟩ | h2
  · exact absurd h1 (by decide)
  · exact h2.2.2

/-- C6 (the claim as stated fails): a non-empty state whose key `url` holds the
empty string and whose count key `git.#` holds 0 has no source variant; the
migration returns it without error and unchanged, the keys `url` and `git.#`
still present. -/
theorem C6_no_source_keeps_legacy_keys :
    migrateBitsStateV2toV3
        (some { ID := "x".toList,
                Attributes := [("url".toList, []), ("git.#".toList, "0".toList)] })
        { zipperManager := none, createSession := fun _ _ => none, sha1 := .ok "abc".toList,
          mkdirAll := fun _ => none, zip := none, create := fun _ => none, copy := none }
      = .returned
          (some { ID := "x".toList,
                  Attributes := [("url".toList, []), ("git.#".toList, "0".toList)] })
          none [] ∧
      Attrs.get [("url".toList, []), ("git.#".toList, "0".toList)] "url".toList = some [] ∧
      Attrs.get [("url".toList, []), ("git.#".toList, "0".toList)] "git.#".toList
        = some "0".toList ∧
      strings.HasPrefix "git.#".toList "git.".toList = true := by
  decide

/-! ## C7: add_content refuses the migration -/

/-- C7: when the state is not empty, the legacy lists decode and `add_content` has
at least one entry, the migration returns the error of `add_content` with the
state as it was, whatever `url`, `git` and `github_release` hold, and calls
neither the fetching service nor the filesystem. -/
theorem C7_add_content_aborts (st : InstanceState) (w : World)
    (gv ghv av : List (Option Attrs)) (hID : st.ID ≠ [])
    (hgit : schema.readListField st.Attributes "git".toList schema.gitFields = .ok gv)
    (hgh : schema.readListField st.Attributes "github_release".toList schema.githubFields
      = .ok ghv)
    (hadd : schema.readListField st.Attributes "add_content".toList schema.addContentFields
      = .ok av)
    (hlen : 1 ≤ (getListOfStructs av).length) :
    migrateBitsStateV2toV3 (some st) w = .returned (some st) (some addContentError) [] := by
  have hE : ¬ InstanceState.Empty (some st) = true := by simpa [InstanceState.Empty] using hID
  unfold migrateBitsStateV2toV3
  simp only [schema.readString]
  rw [if_neg hE, hgit, hgh, hadd]
  dsimp only
  rw [if_pos (by omega)]

/-- C7 at a concrete state: the `url` does not parse and `add_content` has one
entry. -/
theorem C7_add_content_aborts_witness :
    migrateBitsStateV2toV3
        (some { ID := "x".toList,
                Attributes := [("url".toList, "::".toList), ("add_content.#".toList, "1".toList),
                               ("add_content.0.source".toList, "a".toList)] })
        { zipperManager := none, createSession := fun _ _ => none, sha1 := .ok "abc".toList,
          mkdirAll := fun _ => none, zip := none, create := fun _ => none, copy := none }
      = .returned
          (some { ID := "x".toList,
                  Attributes := [("url".toList, "::".toList), ("add_content.#".toList, "1".toList),
                                 ("add_content.0.source".toList, "a".toList)] })
          (some addContentError) [] :=
  C7_add_content_aborts _ _ [] []
    [some [("source".toList, "a".toList), ("destination".toList, [])]]
    (by decide) rfl rfl rfl (by decide)

/-! ## C8: distinct sources and their output paths -/

theorem append_slash_inj (a b x y : Str) (ha : '/' ∉ a) (hb : '/' ∉ b)
    (h : a ++ '/' :: x = b ++ '/' :: y) : a = b ∧ x = y := by
  induction a generalizing b with
  | nil =>
    cases b with
    | nil => exact ⟨rfl, by simpa using h⟩
    | cons c b =>
      exfalso
      have : '/' = c := by simpa using (List.cons.inj h).1
      exact hb (by rw [← this]; exact List.mem_cons_self _ _)
  | cons c a ih =>
    cases b with
    | nil =>
      exfalso
      have : c = '/' := by simpa using (List.cons.inj h).1
      exact ha (by rw [this]; exact List.mem_cons_self _ _)
    | cons d b =>
      have h1 := List.cons.inj h
      obtain ⟨e1, e2⟩ := ih b (fun hm => ha (List.mem_cons_of_mem _ hm))
        (fun hm => hb (List.mem_cons_of_mem _ hm)) h1.2
      exact ⟨by rw [h1.1, e1], e2⟩

/-- The general case of `migrateBitsOutputPath`: for a host that is not empty,
holds no separator and is not the glare host, and a path that begins with a
separator and whose last element is neither `zip` nor `tar`, the result is the
host followed by the path with the extension of its last element replaced by
`.zip`. -/
theorem migrateBitsOutputPath_general (u : url.URL) (h1 : u.Host ≠ []) (h2 : '/' ∉ u.Host)
    (h3 : u.Host ≠ "glare.now.sh".toList)
    (h4 : strings.HasPrefix u.Path "/".toList = true)
    (h5 : filepath.Base u.Path ≠ "zip".toList) (h6 : filepath.Base u.Path ≠ "tar".toList) :
    (∃ s, strings.TrimSuffix u.Path (filepath.Ext u.Path) = '/' :: s) ∧
      migrateBitsOutputPath u
        = u.Host ++ strings.TrimSuffix u.Path (filepath.Ext u.Path) ++ ".zip".toList := by
  obtain ⟨stem, e1, e2⟩ := filepath.Ext_decomp u.Path
  have e3 : strings.TrimSuffix u.Path (filepath.Ext u.Path) = stem := by
    have := strings.TrimSuffix_append stem (filepath.Ext u.Path)
    rw [← e1] at this
    exact this
  have hp : u.Path ≠ [] := by
    intro e; rw [e] at h4; exact absurd h4 (by decide)
  have e4 : ∃ s, stem = '/' :: s := by
    cases hs : stem with
    | nil =>
      exfalso
      rw [hs, List.nil_append] at e1
      rw [← e1] at e2
      cases hq : u.Path with
      | nil => exact hp hq
      | cons c t =>
        rw [hq] at h4 e2
        have hc : c = '/' := by
          unfold strings.HasPrefix at h4
          exact (by simpa [List.isPrefixOf] using h4 : '/' = c).symm
        exact e2 (by simp [hc])
    | cons c s =>
      rw [hs] at e1
      rw [e1] at h4
      have hc : c = '/' := by
        unfold strings.HasPrefix at h4
        exact (by simpa [List.isPrefixOf] using h4 : '/' = c).symm
      exact ⟨s, by rw [hc]⟩
  refine ⟨by rw [e3]; exact e4, ?_⟩
  obtain ⟨s, hs⟩ := e4
  unfold migrateBitsOutputPath
  dsimp only [filepath.FromSlash]
  have c1 : (if filepath.Base u.Path = "zip".toList ∨ filepath.Base u.Path = "tar".toList then
      filepath.Join (filepath.Dir u.Path) "archive.zip".toList else u.Path) = u.Path :=
    if_neg (by rintro (h | h) <;> contradiction)
  rw [c1]
  have c2 : (if u.Path ≠ [] then
      strings.TrimSuffix u.Path (filepath.Ext u.Path) ++ ".zip".toList else u.Path)
      = stem ++ ".zip".toList := by rw [if_pos hp, e3]
  rw [c2]
  have c3 : (if u.Host = "glare.now.sh".toList then "github.com".toList else u.Host) = u.Host :=
    if_neg h3
  rw [c3]
  have hpre : strings.HasPrefix (stem ++ ".zip".toList) "/".toList = true := by
    rw [hs]; simp [strings.HasPrefix]
  have c4 : (if ¬ strings.HasPrefix (stem ++ ".zip".toList) "/".toList = true then
      "/".toList ++ (stem ++ ".zip".toList) else stem ++ ".zip".toList)
      = stem ++ ".zip".toList := if_neg (not_not.mpr hpre)
  rw [c4, if_neg h1, if_neg (by rw [hs]; exact List.cons_ne_nil _ _),
    strings.TrimSuffix_slash_of_not_mem _ h2, e3, List.append_assoc]

/-- C8 (as amended): among the URIs whose host is not empty, holds no separator
and is not `glare.now.sh`, and whose path begins with a separator and has a
last element other than `zip` and `tar`, two URIs derive the same output path
exactly when they have the same host and the same path up to the extension
of its last element.  Scheme, userinfo, fragment and that extension do not
enter the output path. -/
theorem C8_same_output_iff (u1 u2 : url.URL)
    (a1 : u1.Host ≠ []) (a2 : '/' ∉ u1.Host) (a3 : u1.Host ≠ "glare.now.sh".toList)
    (a4 : strings.HasPrefix u1.Path "/".toList = true)
    (a5 : filepath.Base u1.Path ≠ "zip".toList) (a6 : filepath.Base u1.Path ≠ "tar".toList)
    (b1 : u2.Host ≠ []) (b2 : '/' ∉ u2.Host) (b3 : u2.Host ≠ "glare.now.sh".toList)
    (b4 : strings.HasPrefix u2.Path "/".toList = true)
    (b5 : filepath.Base u2.Path ≠ "zip".toList) (b6 : filepath.Base u2.Path ≠ "tar".toList) :
    migrateBitsOutputPath u1 = migrateBitsOutputPath u2 ↔
      u1.Host = u2.Host ∧
        strings.TrimSuffix u1.Path (filepath.Ext u1.Path)
          = strings.TrimSuffix u2.Path (filepath.Ext u2.Path) := by
  obtain ⟨⟨s1, hs1⟩, e1⟩ := migrateBitsOutputPath_general u1 a1 a2 a3 a4 a5 a6
  obtain ⟨⟨s2, hs2⟩, e2⟩ := migrateBitsOutputPath_general u2 b1 b2 b3 b4 b5 b6
  rw [e1, e2, hs1, hs2]
  constructor
  · intro h
    have h' : u1.Host ++ '/' :: (s1 ++ ".zip".toList) = u2.Host ++ '/' :: (s2 ++ ".zip".toList) := by
      simpa using h
    obtain ⟨h1, h2⟩ := append_slash_inj _ _ _ _ a2 b2 h'
    exact ⟨h1, by rw [List.append_cancel_right h2]⟩
  · rintro ⟨h1, h2⟩
    rw [h1, h2]

/-- C8 at two concrete URIs of that class: `https://example.com/a/x.tar` and
`https://example.org/a/x.tar` differ in their host and derive distinct paths. -/
theorem C8_same_output_iff_witness :
    migrateBitsOutputPath
        { Scheme := "https".toList, Host := "example.com".toList, Path := "/a/x.tar".toList }
      ≠ migrateBitsOutputPath
        { Scheme := "https".toList, Host := "example.org".toList, Path := "/a/x.tar".toList } :=
  fun h =>
    absurd
      ((C8_same_output_iff
        { Scheme := "https".toList, Host := "example.com".toList, Path := "/a/x.tar".toList }
        { Scheme := "https".toList, Host := "example.org".toList, Path := "/a/x.tar".toList }
        (by decide) (by decide) (by decide) (by decide) (by decide) (by decide)
        (by decide) (by decide) (by decide) (by decide) (by decide) (by decide)).mp h).1
      (by decide)

/-- C8 (the claim as stated fails): four pairs of distinct URIs with the same
output path.  They differ only in the fragment, only in scheme and userinfo,
only in the extension of the path, and only in the host `glare.now.sh` against
`github.com`. -/
theorem C8_distinct_sources_collide :
    (({ Scheme := "https".toList, Host := "github.com".toList, Path := "/o/r.git".toList,
        Fragment := "master".toList } : url.URL)
        ≠ { Scheme := "https".toList, Host := "github.com".toList, Path := "/o/r.git".toList,
            Fragment := "v2".toList } ∧
      migrateBitsOutputPath
          { Scheme := "https".toList, Host := "github.com".toList, Path := "/o/r.git".toList,
            Fragment := "master".toList }
        = migrateBitsOutputPath
          { Scheme := "https".toList, Host := "github.com".toList, Path := "/o/r.git".toList,
            Fragment := "v2".toList }) ∧
    (({ Scheme := "ssh".toList, User := some (url.User "git".toList),
        Host := "github.com".toList, Path := "/o/r.git".toList } : url.URL)
        ≠ { Scheme := "https".toList, Host := "github.com".toList, Path := "/o/r.git".toList } ∧
      migrateBitsOutputPath
          { Scheme := "ssh".toList, User := some (url.User "git".toList),
            Host := "github.com".toList, Path := "/o/r.git".toList }
        = migrateBitsOutputPath
          { Scheme := "https".toList, Host := "github.com".toList, Path := "/o/r.git".toList }) ∧
    (({ Scheme := "https".toList, Host := "example.com".toList, Path := "/x.tar".toList }
        : url.URL)
        ≠ { Scheme := "https".toList, Host := "example.com".toList, Path := "/x.tgz".toList } ∧
      migrateBitsOutputPath
          { Scheme := "https".toList, Host := "example.com".toList, Path := "/x.tar".toList }
        = migrateBitsOutputPath
          { Scheme := "https".toList, Host := "example.com".toList, Path := "/x.tgz".toList }) ∧
    (({ Scheme := "https".toList, Host := "glare.now.sh".toList, Path := "/o/r/zip".toList }
        : url.URL)
        ≠ { Scheme := "https".toList, Host := "github.com".toList, Path := "/o/r/zip".toList } ∧
      migrateBitsOutputPath
          { Scheme := "https".toList, Host := "glare.now.sh".toList, Path := "/o/r/zip".toList }
        = migrateBitsOutputPath
          { Scheme := "https".toList, Host := "github.com".toList, Path := "/o/r/zip".toList }) := by
  decide

/-! ## C9: paths that end in zip or tar -/

namespace filepath

theorem Clean_of_stack (s : Str) (hs : s ≠ []) (b : Str) (st : List Str) (hb : b ≠ [])
    (h : (splitSlash s).foldl (cleanStep (decide (s.head? = some '/'))) [] = b :: st) :
    ∃ z, Clean s = z ++ b ∧ (z = [] ∨ ∃ z', z = z' ++ ['/']) := by
  unfold Clean
  rw [if_neg hs]
  dsimp only
  rw [h, List.reverse_cons]
  by_cases hst : st = []
  · subst hst
    have e : joinSlash (([] : List Str).reverse ++ [b]) = b := rfl
    rw [e]
    by_cases hr : decide (s.head? = some '/') = true
    · rw [if_pos hr]
      exact ⟨['/'], rfl, Or.inr ⟨[], rfl⟩⟩
    · rw [if_neg hr, if_neg hb]
      exact ⟨[], rfl, Or.inl rfl⟩
  · rw [joinSlash_snoc _ _ (by simpa using hst)]
    by_cases hr : decide (s.head? = some '/') = true
    · rw [if_pos hr]
      exact ⟨'/' :: joinSlash st.reverse ++ ['/'], by simp, Or.inr ⟨_, rfl⟩⟩
    · rw [if_neg hr, if_neg (by simp)]
      exact ⟨joinSlash st.reverse ++ ['/'], by simp, Or.inr ⟨_, rfl⟩⟩

theorem Clean_of_stack2 (s : Str) (hs : s ≠ []) (a b : Str) (st : List Str)
    (h : (splitSlash s).foldl (cleanStep (decide (s.head? = some '/'))) [] = b :: a :: st) :
    ∃ z, Clean s = z ++ (a ++ '/' :: b) ∧ (z = [] ∨ ∃ z', z = z' ++ ['/']) := by
  unfold Clean
  rw [if_neg hs]
  dsimp only
  rw [h, List.reverse_cons, List.reverse_cons, joinSlash_snoc _ _ (by simp)]
  by_cases hst : st = []
  · subst hst
    have e : joinSlash (([] : List Str).reverse ++ [a]) = a := rfl
    rw [e]
    by_cases hr : decide (s.head? = some '/') = true
    · rw [if_pos hr]
      exact ⟨['/'], rfl, Or.inr ⟨[], rfl⟩⟩
    · rw [if_neg hr, if_neg (by simp)]
      exact ⟨[], rfl, Or.inl rfl⟩
  · rw [joinSlash_snoc _ _ (by simpa using hst)]
    by_cases hr : decide (s.head? = some '/') = true
    · rw [if_pos hr]
      exact ⟨'/' :: joinSlash st.reverse ++ ['/'], by simp, Or.inr ⟨_, rfl⟩⟩
    · rw [if_neg hr, if_neg (by simp)]
      exact ⟨joinSlash st.reverse ++ ['/'], by simp, Or.inr ⟨_, rfl⟩⟩

theorem Ext_append_zip (y : Str) : Ext (y ++ ".zip".toList) = ".zip".toList := by
  unfold Ext
  have e : (y ++ ".zip".toList).reverse = 'p' :: 'i' :: 'z' :: '.' :: y.reverse := by
    rw [List.reverse_append]; rfl
  rw [e]
  rfl

theorem Base_append_slash (w t : Str) (ht : t ≠ []) (h : '/' ∉ t) :
    Base (w ++ '/' :: t) = t := by
  unfold Base
  rw [if_neg (by simp)]
  dsimp only
  have e : (w ++ '/' :: t).reverse = t.reverse ++ '/' :: w.reverse := by simp
  rw [e]
  obtain ⟨c, r, hr⟩ : ∃ c r, t.reverse = c :: r := by
    cases h' : t.reverse with
    | nil => exact absurd (List.reverse_eq_nil_iff.mp h') ht
    | cons c r => exact ⟨c, r, rfl⟩
  have hc : c ≠ '/' := by
    intro e'
    apply h
    have : c ∈ t.reverse := by rw [hr]; exact List.mem_cons_self _ _
    rw [← e']; exact List.mem_reverse.mp this
  have hd : List.dropWhile (fun c => decide (c = '/')) (t.reverse ++ '/' :: w.reverse)
      = t.reverse ++ '/' :: w.reverse := by
    rw [hr, List.cons_append, List.dropWhile_cons_of_neg (by simpa using hc)]
  rw [hd]
  have ht' : List.takeWhile (fun c => decide (c ≠ '/')) (t.reverse ++ '/' :: w.reverse)
      = t.reverse := by
    rw [List.takeWhile_append_of_pos (by
      intro x hx
      have : x ≠ '/' := fun e' => h (by rw [← e']; exact List.mem_reverse.mp hx)
      simpa using this)]
    rw [List.takeWhile_cons_of_neg (by simp)]
    simp
  rw [ht', List.reverse_reverse, if_neg ht]

end filepath

theorem leading_slash_suffix (z t : Str) (hz : z = [] ∨ ∃ z', z = z' ++ ['/'])
    (ht : strings.HasPrefix t "/".toList = false) :
    ∃ w, (if ¬ strings.HasPrefix (z ++ t) "/".toList = true then "/".toList ++ (z ++ t)
      else z ++ t) = w ++ '/' :: t := by
  rcases hz with hz | ⟨z', hz⟩
  · subst hz
    rw [List.nil_append, if_pos (by rw [ht]; simp)]
    exact ⟨[], rfl⟩
  · subst hz
    by_cases hp : strings.HasPrefix (z' ++ ['/'] ++ t) "/".toList = true
    · rw [if_neg (not_not.mpr hp)]
      exact ⟨z', by simp⟩
    · rw [if_pos hp]
      exact ⟨'/' :: z', by simp⟩

/-- The branch of `migrateBitsOutputPath` for a path whose last element is `zip`
or `tar`: the path becomes `Join(Dir(path), "archive.zip")`, keeps that value
through the replacement of the extension, and gets a leading separator. -/
theorem migrateBitsOutputPath_archive (u : url.URL)
    (hb : filepath.Base u.Path = "zip".toList ∨ filepath.Base u.Path = "tar".toList) :
    migrateBitsOutputPath u =
      if (if u.Host = "glare.now.sh".toList then "github.com".toList else u.Host) = [] then
        filepath.Base
          (if ¬ strings.HasPrefix (filepath.Join (filepath.Dir u.Path) "archive.zip".toList)
              "/".toList = true
            then "/".toList ++ filepath.Join (filepath.Dir u.Path) "archive.zip".toList
            else filepath.Join (filepath.Dir u.Path) "archive.zip".toList)
      else
        strings.TrimSuffix
            (if u.Host = "glare.now.sh".toList then "github.com".toList else u.Host) "/".toList ++
          (if ¬ strings.HasPrefix (filepath.Join (filepath.Dir u.Path) "archive.zip".toList)
              "/".toList = true
            then "/".toList ++ filepath.Join (filepath.Dir u.Path) "archive.zip".toList
            else filepath.Join (filepath.Dir u.Path) "archive.zip".toList) := by
  have hd : filepath.Dir u.Path ≠ [] := filepath.Clean_ne_nil _
  have hJ : filepath.Join (filepath.Dir u.Path) "archive.zip".toList
      = filepath.Clean (filepath.Dir u.Path ++ '/' :: "archive.zip".toList) := by
    unfold filepath.Join; rw [if_pos hd]
  have hs : filepath.splitSlash (filepath.Dir u.Path ++ '/' :: "archive.zip".toList)
      = filepath.splitSlash (filepath.Dir u.Path) ++ ["archive.zip".toList] := by
    rw [filepath.splitSlash_append_slash]; rfl
  have hf : ∀ r : Bool,
      (filepath.splitSlash (filepath.Dir u.Path ++ '/' :: "archive.zip".toList)).foldl
          (filepath.cleanStep r) []
        = "archive.zip".toList ::
          (filepath.splitSlash (filepath.Dir u.Path)).foldl (filepath.cleanStep r) [] := by
    intro r
    rw [hs, List.foldl_append]
    exact filepath.cleanStep_real r _ "archive.zip".toList (by decide) (by decide) (by decide)
  obtain ⟨z, hz, -⟩ := filepath.Clean_of_stack
    (filepath.Dir u.Path ++ '/' :: "archive.zip".toList) (by simp) "archive.zip".toList
    _ (by decide) (hf _)
  have hz' : filepath.Join (filepath.Dir u.Path) "archive.zip".toList
      = (z ++ "archive".toList) ++ ".zip".toList := by
    rw [hJ, hz, List.append_assoc]; rfl
  have hj : filepath.Join (filepath.Dir u.Path) "archive.zip".toList ≠ [] :=
    Join_ne_nil _ _ (by decide)
  unfold migrateBitsOutputPath
  dsimp only [filepath.FromSlash]
  have c1 : (if filepath.Base u.Path = "zip".toList ∨ filepath.Base u.Path = "tar".toList then
      filepath.Join (filepath.Dir u.Path) "archive.zip".toList else u.Path)
      = filepath.Join (filepath.Dir u.Path) "archive.zip".toList := if_pos hb
  rw [c1]
  have c2 : (if filepath.Join (filepath.Dir u.Path) "archive.zip".toList ≠ [] then
      strings.TrimSuffix (filepath.Join (filepath.Dir u.Path) "archive.zip".toList)
        (filepath.Ext (filepath.Join (filepath.Dir u.Path) "archive.zip".toList)) ++
        ".zip".toList
      else filepath.Join (filepath.Dir u.Path) "archive.zip".toList)
      = filepath.Join (filepath.Dir u.Path) "archive.zip".toList := by
    rw [if_pos hj]
    conv_lhs => rw [hz', filepath.Ext_append_zip, strings.TrimSuffix_append]
    exact hz'.symm
  rw [c2]
  by_cases hh : (if u.Host = "glare.now.sh".toList then "github.com".toList else u.Host) = []
  · rw [if_pos hh, if_pos hh]
  · rw [if_neg hh, if_neg hh, if_neg]
    split <;> simp
    exact hj

theorem dirPart_append_slash (w t : Str) (h : '/' ∉ t) :
    ((w ++ '/' :: t).reverse.dropWhile (fun c => c ≠ '/')).reverse = w ++ ['/'] := by
  have e : (w ++ '/' :: t).reverse = t.reverse ++ '/' :: w.reverse := by simp
  rw [e, List.dropWhile_append_of_pos (by
    intro x hx
    have : x ≠ '/' := fun e' => h (by rw [← e']; exact List.mem_reverse.mp hx)
    simpa using this)]
  rw [List.dropWhile_cons_of_neg (by simp)]
  simp

theorem Join_Dir_archive_form (p : Str) :
    ∃ z, filepath.Join (filepath.Dir p) "archive.zip".toList = z ++ "archive.zip".toList ∧
      (z = [] ∨ ∃ z', z = z' ++ ['/']) := by
  have hd : filepath.Dir p ≠ [] := filepath.Clean_ne_nil _
  have hJ : filepath.Join (filepath.Dir p) "archive.zip".toList
      = filepath.Clean (filepath.Dir p ++ '/' :: "archive.zip".toList) := by
    unfold filepath.Join; rw [if_pos hd]
  have hf : ∀ r : Bool,
      (filepath.splitSlash (filepath.Dir p ++ '/' :: "archive.zip".toList)).foldl
          (filepath.cleanStep r) []
        = "archive.zip".toList ::
          (filepath.splitSlash (filepath.Dir p)).foldl (filepath.cleanStep r) [] := by
    intro r
    have hs : filepath.splitSlash (filepath.Dir p ++ '/' :: "archive.zip".toList)
        = filepath.splitSlash (filepath.Dir p) ++ ["archive.zip".toList] := by
      rw [filepath.splitSlash_append_slash]; rfl
    rw [hs, List.foldl_append]
    exact filepath.cleanStep_real r _ "archive.zip".toList (by decide) (by decide) (by decide)
  rw [hJ]
  exact filepath.Clean_of_stack _ (by simp) "archive.zip".toList _ (by decide) (hf _)

theorem Join_Dir_download_form (pre : Str) :
    ∃ z, filepath.Join (filepath.Dir (pre ++ "/download/zip".toList)) "archive.zip".toList
        = z ++ "download/archive.zip".toList ∧
      (z = [] ∨ ∃ z', z = z' ++ ['/']) := by
  have e0 : pre ++ "/download/zip".toList = (pre ++ "/download".toList) ++ '/' :: "zip".toList := by
    simp
  have hD : filepath.Dir (pre ++ "/download/zip".toList)
      = filepath.Clean ((pre ++ '/' :: "download".toList) ++ '/' :: []) := by
    unfold filepath.Dir
    rw [e0, dirPart_append_slash _ _ (by decide)]
    simp
  have hf1 : ∀ r : Bool,
      (filepath.splitSlash ((pre ++ '/' :: "download".toList) ++ '/' :: [])).foldl
          (filepath.cleanStep r) []
        = "download".toList :: (filepath.splitSlash pre).foldl (filepath.cleanStep r) [] := by
    intro r
    have hs : filepath.splitSlash ((pre ++ '/' :: "download".toList) ++ '/' :: [])
        = filepath.splitSlash pre ++ ["download".toList] ++ [[]] := by
      rw [filepath.splitSlash_append_slash, filepath.splitSlash_append_slash]; rfl
    rw [hs, List.foldl_append, List.foldl_append]
    show filepath.cleanStep r (filepath.cleanStep r _ "download".toList) [] = _
    rw [filepath.cleanStep_skip r _ [] (Or.inl rfl),
      filepath.cleanStep_real r _ "download".toList (by decide) (by decide) (by decide)]
  obtain ⟨z, hz, hz2⟩ := filepath.Clean_of_stack _ (by simp) "download".toList _ (by decide)
    (hf1 _)
  rw [← hD] at hz
  have hd : filepath.Dir (pre ++ "/download/zip".toList) ≠ [] := filepath.Clean_ne_nil _
  have hJ : filepath.Join (filepath.Dir (pre ++ "/download/zip".toList)) "archive.zip".toList
      = filepath.Clean ((z ++ "download".toList) ++ '/' :: "archive.zip".toList) := by
    unfold filepath.Join; rw [if_pos hd, hz]
  obtain ⟨X, hX⟩ : ∃ X, filepath.splitSlash (z ++ "download".toList) = X ++ ["download".toList] := by
    rcases hz2 with hz2 | ⟨z', hz2⟩
    · subst hz2; exact ⟨[], by decide⟩
    · subst hz2
      refine ⟨filepath.splitSlash z', ?_⟩
      have : z' ++ ['/'] ++ "download".toList = z' ++ '/' :: "download".toList := by simp
      rw [this, filepath.splitSlash_append_slash]; rfl
  have hf2 : ∀ r : Bool,
      (filepath.splitSlash ((z ++ "download".toList) ++ '/' :: "archive.zip".toList)).foldl
          (filepath.cleanStep r) []
        = "archive.zip".toList :: "download".toList :: X.foldl (filepath.cleanStep r) [] := by
    intro r
    have hs : filepath.splitSlash ((z ++ "download".toList) ++ '/' :: "archive.zip".toList)
        = X ++ ["download".toList] ++ ["archive.zip".toList] := by
      rw [filepath.splitSlash_append_slash, hX]; rfl
    rw [hs, List.foldl_append, List.foldl_append]
    show filepath.cleanStep r (filepath.cleanStep r _ "download".toList) "archive.zip".toList = _
    rw [filepath.cleanStep_real r _ "download".toList (by decide) (by decide) (by decide),
      filepath.cleanStep_real r _ "archive.zip".toList (by decide) (by decide) (by decide)]
  obtain ⟨z2, hz3, hz4⟩ := filepath.Clean_of_stack2 _ (by simp) "download".toList
    "archive.zip".toList _ (hf2 _)
  rw [hJ, hz3]
  exact ⟨z2, rfl, hz4⟩

theorem Base_download_zip (pre : Str) :
    filepath.Base (pre ++ "/download/zip".toList) = "zip".toList := by
  have e0 : pre ++ "/download/zip".toList = (pre ++ "/download".toList) ++ '/' :: "zip".toList := by
    simp
  rw [e0]
  exact filepath.Base_append_slash _ _ (by decide) (by decide)

/-- C9 (as amended): when the last element of the path is `zip` or `tar`, that
element is replaced by `archive.zip`.  With a non-empty host the output is the
host followed by `Join(Dir(path), "archive.zip")` (the directory of the path,
cleaned) with a leading separator; it ends in `/archive.zip`, and in
`/download/archive.zip` when the path ends in `/download/zip`.  With an empty
host the output is `archive.zip` alone. -/
theorem C9_archive_zip (u : url.URL) :
    (∀ pre, u.Path = pre ++ "/download/zip".toList → u.Host ≠ [] →
        strings.HasSuffix (migrateBitsOutputPath u) "/download/archive.zip".toList = true) ∧
      (filepath.Base u.Path = "zip".toList ∨ filepath.Base u.Path = "tar".toList →
        (u.Host ≠ [] →
          migrateBitsOutputPath u
            = strings.TrimSuffix
                (if u.Host = "glare.now.sh".toList then "github.com".toList else u.Host)
                "/".toList ++
              (if ¬ strings.HasPrefix (filepath.Join (filepath.Dir u.Path) "archive.zip".toList)
                  "/".toList = true
                then "/".toList ++ filepath.Join (filepath.Dir u.Path) "archive.zip".toList
                else filepath.Join (filepath.Dir u.Path) "archive.zip".toList) ∧
          strings.HasSuffix (migrateBitsOutputPath u) "/archive.zip".toList = true) ∧
        (u.Host = [] → migrateBitsOutputPath u = "archive.zip".toList)) := by
  have hhost : u.Host ≠ [] →
      (if u.Host = "glare.now.sh".toList then "github.com".toList else u.Host) ≠ [] := by
    intro h
    split
    · decide
    · exact h
  refine ⟨?_, ?_⟩
  · intro pre hp hh
    rw [migrateBitsOutputPath_archive u (Or.inl (by rw [hp]; exact Base_download_zip pre)),
      if_neg (hhost hh), hp]
    obtain ⟨z, hz, hz2⟩ := Join_Dir_download_form pre
    rw [hz]
    obtain ⟨w, hw⟩ := leading_slash_suffix z "download/archive.zip".toList hz2 (by decide)
    rw [hw]
    have : ∀ a : Str, a ++ (w ++ '/' :: "download/archive.zip".toList)
        = (a ++ w) ++ "/download/archive.zip".toList := by intro a; simp
    rw [this]
    exact strings.HasSuffix_append _ _
  · intro hb
    refine ⟨?_, ?_⟩
    · intro hh
      refine ⟨by rw [migrateBitsOutputPath_archive u hb, if_neg (hhost hh)], ?_⟩
      rw [migrateBitsOutputPath_archive u hb]
      obtain ⟨z, hz, hz2⟩ := Join_Dir_archive_form u.Path
      rw [hz]
      obtain ⟨w, hw⟩ := leading_slash_suffix z "archive.zip".toList hz2 (by decide)
      rw [hw, if_neg (hhost hh)]
      have : ∀ a : Str, a ++ (w ++ '/' :: "archive.zip".toList)
          = (a ++ w) ++ "/archive.zip".toList := by intro a; simp
      rw [this]
      exact strings.HasSuffix_append _ _
    · intro hh
      rw [migrateBitsOutputPath_archive u hb]
      obtain ⟨z, hz, hz2⟩ := Join_Dir_archive_form u.Path
      rw [hz]
      obtain ⟨w, hw⟩ := leading_slash_suffix z "archive.zip".toList hz2 (by decide)
      rw [hw]
      have e : (if u.Host = "glare.now.sh".toList then "github.com".toList else u.Host) = [] := by
        rw [hh]; decide
      rw [if_pos e]
      exact filepath.Base_append_slash _ _ (by decide) (by decide)

/-- C9 at the glare address of a release: host `glare.now.sh`, path
`/o/r/download/zip`. -/
theorem C9_archive_zip_witness :
    migrateBitsOutputPath
        { Scheme := "https".toList, Host := "glare.now.sh".toList,
          Path := "/o/r/download/zip".toList }
      = "github.com/o/r/download/archive.zip".toList ∧
    strings.HasSuffix
        (migrateBitsOutputPath
          { Scheme := "https".toList, Host := "glare.now.sh".toList,
            Path := "/o/r/download/zip".toList })
        "/download/archive.zip".toList = true :=
  ⟨by decide,
    (C9_archive_zip
      { Scheme := "https".toList, Host := "glare.now.sh".toList,
        Path := "/o/r/download/zip".toList }).1 "/o/r".toList (by decide) (by decide)⟩

/-- C9 (the claim as stated fails): the raw URL `file:///x/download/zip` resolves
to a URI without host whose path ends in `/download/zip`; its output path is
`archive.zip`, which does not end in `/download/archive.zip`, and the elements
`x` and `download` are not kept. -/
theorem C9_empty_host_drops_directories :
    migrateBitsUrl "file:///x/download/zip".toList [] []
      = .ok (some { Path := "/x/download/zip".toList }) ∧
    migrateBitsOutputPath { Path := "/x/download/zip".toList } = "archive.zip".toList ∧
    strings.HasSuffix "archive.zip".toList "/download/archive.zip".toList = false := by
  refine ⟨rfl, by decide, by decide⟩

/-! ## C10: a host with an empty path -/

/-- C10 (the code departs from the claim): for the host `example.com` and the
empty path the function returns `example.com/`, not `example.com.zip`; the
leading separator is added to the path before the test for the empty path. -/
theorem C10_empty_path_gives_host_slash :
    migrateBitsOutputPath { Scheme := "https".toList, Host := "example.com".toList, Path := [] }
        = "example.com/".toList ∧
      migrateBitsOutputPath { Scheme := "https".toList, Host := "example.com".toList, Path := [] }
        ≠ "example.com.zip".toList := by
  decide

/-! ## C11: the glare host and the github host -/

/-- C11: whatever the scheme, the userinfo and the fragment, a URI with host
`glare.now.sh` and a URI with host `github.com` that have the same path derive
the same output path. -/
theorem C11_host_aliasing (u1 u2 : url.URL) (h1 : u1.Host = "glare.now.sh".toList)
    (h2 : u2.Host = "github.com".toList) (hp : u1.Path = u2.Path) :
    migrateBitsOutputPath u1 = migrateBitsOutputPath u2 := by
  unfold migrateBitsOutputPath
  rw [h1, h2, hp]
  rfl

/-- C11 at the input of the claim: the path `/o/r/zip` under the two hosts, with
different scheme, userinfo and fragment. -/
theorem C11_host_aliasing_witness :
    migrateBitsOutputPath
        { Scheme := "https".toList, Host := "glare.now.sh".toList, Path := "/o/r/zip".toList }
      = migrateBitsOutputPath
        { Scheme := "ssh".toList, User := some (url.User "git".toList),
          Host := "github.com".toList, Path := "/o/r/zip".toList,
          Fragment := "master".toList } ∧
    migrateBitsOutputPath
        { Scheme := "https".toList, Host := "glare.now.sh".toList, Path := "/o/r/zip".toList }
      = "github.com/o/r/archive.zip".toList :=
  ⟨C11_host_aliasing _ _ rfl rfl rfl, by decide⟩

/-! ## C12: the successful materialization -/

/-- C12: for a non-empty state whose source resolves to a URI `u` outside the
direct-reference case, when the manager and the session are created and the
digest, the directory creation, the zip stream, the file creation and the copy
succeed, the migration returns without error; the archive file is created at
`filepath.Join("bits", migrateBitsOutputPath(u))`, the attribute `path` holds
that same path, the attribute `source_code_hash` holds the digest, and every key
other than `path`, `source_code_hash`, `url`, `add_content` and the keys of the
groups `git.` and `github_release.` keeps its value. -/
theorem C12_materialization_result (st : InstanceState) (w : World)
    (gv ghv av : List (Option Attrs)) (u : url.URL) (digest : Str)
    (hID : st.ID ≠ [])
    (hgit : schema.readListField st.Attributes "git".toList schema.gitFields = .ok gv)
    (hgh : schema.readListField st.Attributes "github_release".toList schema.githubFields
      = .ok ghv)
    (hadd : schema.readListField st.Attributes "add_content".toList schema.addContentFields
      = .ok av)
    (hnone : getListOfStructs av = [])
    (hu : migrateBitsUrl ((st.Attributes.get "url".toList).getD [])
      ((getListOfStructs gv).headD []) ((getListOfStructs ghv).headD []) = .ok (some u))
    (hslow : ¬ ((u.Scheme = "http".toList ∨ u.Scheme = "https".toList) ∧
      filepath.Ext u.Path = ".zip".toList))
    (hzm : w.zipperManager = none)
    (hcs : w.createSession u.String (if u.Host = [] then "local".toList else []) = none)
    (hsha : w.sha1 = .ok digest)
    (hmk : w.mkdirAll (filepath.Dir (filepath.Join folderBits (migrateBitsOutputPath u))) = none)
    (hzip : w.zip = none)
    (hcr : w.create (filepath.Join folderBits (migrateBitsOutputPath u)) = none)
    (hcp : w.copy = none) :
    ∃ s', migrateBitsStateV2toV3 (some st) w
        = .returned (some s') none
            [Effect.createSession u.String (if u.Host = [] then "local".toList else []),
             Effect.sha1,
             Effect.mkdirAll (filepath.Dir (filepath.Join folderBits (migrateBitsOutputPath u))),
             Effect.zip,
             Effect.create (filepath.Join folderBits (migrateBitsOutputPath u)),
             Effect.copy (filepath.Join folderBits (migrateBitsOutputPath u)),
             Effect.closeFile, Effect.closeZip] ∧
      s'.ID = st.ID ∧
      s'.Attributes.get "source_code_hash".toList = some digest ∧
      s'.Attributes.get "path".toList
        = some (filepath.Join folderBits (migrateBitsOutputPath u)) ∧
      ∀ k : Str, k ≠ "path".toList → k ≠ "source_code_hash".toList → k ≠ "url".toList →
        k ≠ "add_content".toList → strings.HasPrefix k "git.".toList = false →
        strings.HasPrefix k "github_release.".toList = false →
        s'.Attributes.get k = st.Attributes.get k := by
  have hE : ¬ InstanceState.Empty (some st) = true := by
    simpa [InstanceState.Empty] using hID
  have hrun : migrateBitsStateV2toV3 (some st) w = materialize st w u := by
    unfold migrateBitsStateV2toV3
    dsimp only
    rw [if_neg hE]
    simp only [schema.readString]
    rw [hgit, hgh, hadd]
    dsimp only
    rw [hnone, if_neg (by simp), hu]
    dsimp only
    rw [if_neg hslow]
  have hmat : materialize st w u
      = .returned
          (some ⟨st.ID, migrateBitsDeleteAttr
            (Attrs.set (Attrs.set st.Attributes "source_code_hash".toList digest)
              "path".toList (filepath.Join folderBits (migrateBitsOutputPath u)))⟩)
          none
          [Effect.createSession u.String (if u.Host = [] then "local".toList else []),
           Effect.sha1,
           Effect.mkdirAll (filepath.Dir (filepath.Join folderBits (migrateBitsOutputPath u))),
           Effect.zip,
           Effect.create (filepath.Join folderBits (migrateBitsOutputPath u)),
           Effect.copy (filepath.Join folderBits (migrateBitsOutputPath u)),
           Effect.closeFile, Effect.closeZip] := by
    unfold materialize
    rw [hzm]
    dsimp only
    rw [hcs, hsha]
    dsimp only
    rw [hmk, hzip]
    dsimp only
    rw [hcr, hcp]
    rfl
  refine ⟨_, hrun.trans hmat, rfl, ?_, ?_, ?_⟩
  · show Attrs.get (migrateBitsDeleteAttr _) _ = _
    rw [get_migrateBitsDeleteAttr, if_neg (by decide), Attrs.get_set, if_neg (by decide),
      Attrs.get_set, if_pos rfl]
  · show Attrs.get (migrateBitsDeleteAttr _) _ = _
    rw [get_migrateBitsDeleteAttr, if_neg (by decide), Attrs.get_set, if_pos rfl]
  · intro k k1 k2 k3 k4 k5 k6
    show Attrs.get (migrateBitsDeleteAttr _) _ = _
    have hk : ¬ (k = "add_content".toList ∨ k = "url".toList ∨
        strings.HasPrefix k "git.".toList = true ∨
        strings.HasPrefix k "github_release.".toList = true) := by
      rintro (h | h | h | h)
      · exact k4 h
      · exact k3 h
      · rw [k5] at h; cases h
      · rw [k6] at h; cases h
    rw [get_migrateBitsDeleteAttr, if_neg hk, Attrs.get_set, if_neg k1, Attrs.get_set,
      if_neg k2]

/-- C12 at a concrete state: the direct URL `https://example.com/repo`, every
external step succeeding, the digest being `abc`. -/
theorem C12_materialization_result_witness :
    ∃ s', migrateBitsStateV2toV3
        (some { ID := "x".toList,
                Attributes := [("url".toList, "https://example.com/repo".toList),
                               ("name".toList, "n".toList)] })
        { zipperManager := none, createSession := fun _ _ => none, sha1 := .ok "abc".toList,
          mkdirAll := fun _ => none, zip := none, create := fun _ => none, copy := none }
        = .returned (some s') none
            [Effect.createSession "https://example.com/repo".toList [],
             Effect.sha1,
             Effect.mkdirAll "bits/example.com".toList,
             Effect.zip,
             Effect.create "bits/example.com/repo.zip".toList,
             Effect.copy "bits/example.com/repo.zip".toList,
             Effect.closeFile, Effect.closeZip] ∧
      s'.ID = "x".toList ∧
      s'.Attributes.get "source_code_hash".toList = some "abc".toList ∧
      s'.Attributes.get "path".toList = some "bits/example.com/repo.zip".toList ∧
      ∀ k : Str, k ≠ "path".toList → k ≠ "source_code_hash".toList → k ≠ "url".toList →
        k ≠ "add_content".toList → strings.HasPrefix k "git.".toList = false →
        strings.HasPrefix k "github_release.".toList = false →
        s'.Attributes.get k
          = Attrs.get [("url".toList, "https://example.com/repo".toList),
                       ("name".toList, "n".toList)] k :=
  C12_materialization_result
    { ID := "x".toList,
      Attributes := [("url".toList, "https://example.com/repo".toList),
                     ("name".toList, "n".toList)] }
    { zipperManager := none, createSession := fun _ _ => none, sha1 := .ok "abc".toList,
      mkdirAll := fun _ => none, zip := none, create := fun _ => none, copy := none }
    [] [] []
    { Scheme := "https".toList, Host := "example.com".toList, Path := "/repo".toList }
    "abc".toList (by decide) rfl rfl rfl rfl rfl (by decide) rfl rfl rfl rfl rfl rfl rfl

/-! ## C13: the general case of the output path -/

namespace filepath

theorem extScan_eq (r acc : Str) :
    extScan r acc
      = if '.' ∈ r.takeWhile (fun c => c ≠ '/') then
          '.' :: (((r.takeWhile (fun c => c ≠ '/')).takeWhile (fun c => c ≠ '.')).reverse ++ acc)
        else [] := by
  induction r generalizing acc with
  | nil => simp [extScan]
  | cons c r ih =>
    by_cases h1 : c = '/'
    · rw [extScan, if_pos h1]
      simp [h1]
    · by_cases h2 : c = '.'
      · rw [extScan, if_neg h1, if_pos h2]
        simp [h2]
      · rw [extScan, if_neg h1, if_neg h2, ih]
        have hc : '.' ≠ c := fun e => h2 e.symm
        simp [h1, h2, hc, List.takeWhile_cons]

end filepath

theorem Ext_eq_segmentExtension (p : Str) :
    filepath.Ext p = segmentExtension (finalSegment p) := by
  unfold filepath.Ext segmentExtension finalSegment
  rw [filepath.extScan_eq, List.reverse_reverse, List.append_nil]
  simp only [List.mem_reverse]

theorem replaceExtension_eq (p : Str) :
    replaceExtension p = strings.TrimSuffix p (filepath.Ext p) ++ ".zip".toList := by
  unfold replaceExtension
  rw [← Ext_eq_segmentExtension]
  obtain ⟨stem, e1, -⟩ := filepath.Ext_decomp p
  have e3 : strings.TrimSuffix p (filepath.Ext p) = stem := by
    have := strings.TrimSuffix_append stem (filepath.Ext p)
    rw [← e1] at this
    exact this
  rw [e3]
  congr 1
  generalize filepath.Ext p = e at e1
  subst e1
  simp

theorem migrateBitsOutputPath_general_trim (u : url.URL) (h1 : u.Host ≠ [])
    (h3 : u.Host ≠ "glare.now.sh".toList)
    (h4 : strings.HasPrefix u.Path "/".toList = true)
    (h5 : filepath.Base u.Path ≠ "zip".toList) (h6 : filepath.Base u.Path ≠ "tar".toList) :
    migrateBitsOutputPath u
      = strings.TrimSuffix u.Host "/".toList
          ++ (strings.TrimSuffix u.Path (filepath.Ext u.Path) ++ ".zip".toList) := by
  obtain ⟨stem, e1, e2⟩ := filepath.Ext_decomp u.Path
  have e3 : strings.TrimSuffix u.Path (filepath.Ext u.Path) = stem := by
    have := strings.TrimSuffix_append stem (filepath.Ext u.Path)
    rw [← e1] at this
    exact this
  have hp : u.Path ≠ [] := by
    intro e; rw [e] at h4; exact absurd h4 (by decide)
  have e4 : ∃ s, stem = '/' :: s := by
    cases hs : stem with
    | nil =>
      exfalso
      rw [hs, List.nil_append] at e1
      rw [← e1] at e2
      cases hq : u.Path with
      | nil => exact hp hq
      | cons c t =>
        rw [hq] at h4 e2
        have hc : c = '/' := by
          unfold strings.HasPrefix at h4
          exact (by simpa [List.isPrefixOf] using h4 : '/' = c).symm
        exact e2 (by simp [hc])
    | cons c s =>
      rw [hs] at e1
      rw [e1] at h4
      have hc : c = '/' := by
        unfold strings.HasPrefix at h4
        exact (by simpa [List.isPrefixOf] using h4 : '/' = c).symm
      exact ⟨s, by rw [hc]⟩
  obtain ⟨s, hs⟩ := e4
  unfold migrateBitsOutputPath
  dsimp only [filepath.FromSlash]
  have c1 : (if filepath.Base u.Path = "zip".toList ∨ filepath.Base u.Path = "tar".toList then
      filepath.Join (filepath.Dir u.Path) "archive.zip".toList else u.Path) = u.Path :=
    if_neg (by rintro (h | h) <;> contradiction)
  rw [c1]
  have c2 : (if u.Path ≠ [] then
      strings.TrimSuffix u.Path (filepath.Ext u.Path) ++ ".zip".toList else u.Path)
      = stem ++ ".zip".toList := by rw [if_pos hp, e3]
  rw [c2]
  have c3 : (if u.Host = "glare.now.sh".toList then "github.com".toList else u.Host) = u.Host :=
    if_neg h3
  rw [c3]
  have hpre : strings.HasPrefix (stem ++ ".zip".toList) "/".toList = true := by
    rw [hs]; simp [strings.HasPrefix]
  have c4 : (if ¬ strings.HasPrefix (stem ++ ".zip".toList) "/".toList = true then
      "/".toList ++ (stem ++ ".zip".toList) else stem ++ ".zip".toList)
      = stem ++ ".zip".toList := if_neg (not_not.mpr hpre)
  rw [c4, if_neg h1, if_neg (by rw [hs]; exact List.cons_ne_nil _ _), e3]

/-- C13 (as stated) fails on a path that ends in a separator, whichever way its
final segment is read, and on a host that ends in a separator.  The URL
`https://example.com/a/zip/` parses to the path `/a/zip/`: the text after its
last separator is empty, neither `zip` nor `tar`, yet the result is
`example.com/a/zip/archive.zip` and not the host followed by the path with a
replaced extension.  The path `/a/b.c/` has the last element `b.c`, neither
`zip` nor `tar`, of extension `.c`, and that extension is kept: the result is
`example.com/a/b.c/.zip`.  The host `a/` loses its separator: with the path
`/repo` the result is `a/repo.zip`. -/
theorem C13_trailing_separator :
    url.Parse "https://example.com/a/zip/".toList
      = .ok { Scheme := "https".toList, Host := "example.com".toList,
              Path := "/a/zip/".toList } ∧
    finalSegment "/a/zip/".toList = [] ∧
    migrateBitsOutputPath
        { Scheme := "https".toList, Host := "example.com".toList, Path := "/a/zip/".toList }
      = "example.com/a/zip/archive.zip".toList ∧
    migrateBitsOutputPath
        { Scheme := "https".toList, Host := "example.com".toList, Path := "/a/zip/".toList }
      ≠ "example.com".toList ++ replaceExtension "/a/zip/".toList ∧
    filepath.Base "/a/b.c/".toList = "b.c".toList ∧
    segmentExtension "b.c".toList = ".c".toList ∧
    migrateBitsOutputPath
        { Scheme := "https".toList, Host := "example.com".toList, Path := "/a/b.c/".toList }
      = "example.com/a/b.c/.zip".toList ∧
    migrateBitsOutputPath { Scheme := "https".toList, Host := "a/".toList, Path := "/repo".toList }
      = "a/repo.zip".toList ∧
    migrateBitsOutputPath { Scheme := "https".toList, Host := "a/".toList, Path := "/repo".toList }
      ≠ "a/".toList ++ replaceExtension "/repo".toList := by
  refine ⟨rfl, ?_, ?_, ?_, ?_, ?_, ?_, ?_, ?_⟩ <;> decide

/-- C13 (as amended): for every URI whose host is not empty, is not
`glare.now.sh` and does not end in a separator, and whose path begins with a
separator and has a last element, as `filepath.Base` gives it, other than `zip`
and `tar`, the output path is the host followed by the path in which the
extension of the text after the last separator (the suffix from its last dot,
none if it has no dot) is replaced by `.zip`. -/
theorem C13_general_case (u : url.URL) (h1 : u.Host ≠ [])
    (h2 : strings.HasSuffix u.Host "/".toList = false)
    (h3 : u.Host ≠ "glare.now.sh".toList)
    (h4 : strings.HasPrefix u.Path "/".toList = true)
    (h5 : filepath.Base u.Path ≠ "zip".toList) (h6 : filepath.Base u.Path ≠ "tar".toList) :
    migrateBitsOutputPath u = u.Host ++ replaceExtension u.Path := by
  have ht : strings.TrimSuffix u.Host "/".toList = u.Host := by
    unfold strings.TrimSuffix
    rw [h2]
    rfl
  rw [migrateBitsOutputPath_general_trim u h1 h3 h4 h5 h6, ht, replaceExtension_eq]

/-- C13 (as amended) at the inputs of the claim: `/app.tar.gz` becomes
`example.com/app.tar.zip` and `/repo` becomes `example.com/repo.zip`. -/
theorem C13_general_case_witness :
    (migrateBitsOutputPath
        { Scheme := "https".toList, Host := "example.com".toList, Path := "/app.tar.gz".toList }
      = "example.com".toList ++ replaceExtension "/app.tar.gz".toList ∧
     "example.com".toList ++ replaceExtension "/app.tar.gz".toList
      = "example.com/app.tar.zip".toList) ∧
    (migrateBitsOutputPath
        { Scheme := "https".toList, Host := "example.com".toList, Path := "/repo".toList }
      = "example.com".toList ++ replaceExtension "/repo".toList ∧
     "example.com".toList ++ replaceExtension "/repo".toList
      = "example.com/repo.zip".toList) :=
  ⟨⟨C13_general_case
      { Scheme := "https".toList, Host := "example.com".toList, Path := "/app.tar.gz".toList }
      (by decide) (by decide) (by decide) (by decide) (by decide) (by decide), by decide⟩,
   ⟨C13_general_case
      { Scheme := "https".toList, Host := "example.com".toList, Path := "/repo".toList }
      (by decide) (by decide) (by decide) (by decide) (by decide) (by decide), by decide⟩⟩

/-! ## C14: the git descriptor -/

/-- C14: with an empty raw URL, for every git descriptor whose url parses to a
URI `g`, `migrateBitsUrl` resolves to `g` in which the fragment is
`branch ++ tag` when branch or tag is non-empty and the userinfo is
(user, password) when user is non-empty, the password read only then and
allowed to be empty; the fragment and the userinfo are those of `g` otherwise,
and scheme, host and path are always those of `g`. -/
theorem C14_git_descriptor (git github : Attrs) (gitUrl branch tag user password : Str)
    (g : url.URL)
    (hurl : git.get "url".toList = some gitUrl) (hparse : giturls.Parse gitUrl = .ok g)
    (hbranch : git.get "branch".toList = some branch) (htag : git.get "tag".toList = some tag)
    (huser : git.get "user".toList = some user)
    (hpassword : user ≠ [] → git.get "password".toList = some password) :
    ∃ r, migrateBitsUrl [] git github = .ok (some r) ∧
      r.Fragment = (if branch ≠ [] ∨ tag ≠ [] then branch ++ tag else g.Fragment) ∧
      r.User = (if user ≠ [] then some (url.UserPassword user password) else g.User) ∧
      r.Scheme = g.Scheme ∧ r.Host = g.Host ∧ r.Path = g.Path := by
  have hlen : git.length > 0 := by
    cases git with
    | nil => cases hurl
    | cons a l => exact Nat.succ_pos _
  unfold migrateBitsUrl
  rw [if_neg (by simp), if_pos hlen]
  simp only [assertString]
  rw [hurl]
  dsimp only
  rw [hparse, hbranch, htag, huser]
  dsimp only
  by_cases hu : user ≠ []
  · rw [if_pos hu, hpassword hu, if_pos hu]
    dsimp only
    refine ⟨_, rfl, ?_, rfl, ?_, ?_, ?_⟩
    all_goals (by_cases hf : branch ≠ [] ∨ tag ≠ [] <;> simp only [hf, if_true, if_false])
  · rw [if_neg hu, if_neg hu]
    refine ⟨_, rfl, ?_, ?_, ?_, ?_, ?_⟩
    all_goals (by_cases hf : branch ≠ [] ∨ tag ≠ [] <;> simp only [hf, if_true, if_false])

/-- C14 at a concrete descriptor: the url `git@github.com:o/r.git` with branch
`master`, tag `v1`, user `bob` and an empty password. -/
theorem C14_git_descriptor_witness :
    giturls.Parse "git@github.com:o/r.git".toList
      = .ok { Scheme := "ssh".toList, User := some (url.User "git".toList),
              Host := "github.com".toList, Path := "o/r.git".toList } ∧
    ∃ r, migrateBitsUrl []
        [("url".toList, "git@github.com:o/r.git".toList), ("branch".toList, "master".toList),
         ("tag".toList, "v1".toList), ("user".toList, "bob".toList),
         ("password".toList, [])] [] = .ok (some r) ∧
      r.Fragment = (if "master".toList ≠ [] ∨ "v1".toList ≠ [] then
        "master".toList ++ "v1".toList else []) ∧
      r.User = (if "bob".toList ≠ [] then some (url.UserPassword "bob".toList [])
        else some (url.User "git".toList)) ∧
      r.Scheme = "ssh".toList ∧ r.Host = "github.com".toList ∧ r.Path = "o/r.git".toList :=
  ⟨rfl,
    C14_git_descriptor
      [("url".toList, "git@github.com:o/r.git".toList), ("branch".toList, "master".toList),
       ("tag".toList, "v1".toList), ("user".toList, "bob".toList), ("password".toList, [])]
      [] "git@github.com:o/r.git".toList "master".toList "v1".toList "bob".toList []
      { Scheme := "ssh".toList, User := some (url.User "git".toList),
        Host := "github.com".toList, Path := "o/r.git".toList }
      rfl rfl rfl rfl rfl (fun _ => rfl)⟩

/-! ## C15: no source variant -/

/-- C15: with an empty raw URL, an empty git map and an empty release map,
`migrateBitsUrl` returns the nil URL and no error; and a state whose lists
decode to that, with no `add_content` entry, is returned by the migration
without error, as it was, with no external call. -/
theorem C15_no_source_is_a_no_op (st : InstanceState) (w : World)
    (gv ghv av : List (Option Attrs))
    (hurl : (st.Attributes.get "url".toList).getD [] = [])
    (hgit : schema.readListField st.Attributes "git".toList schema.gitFields = .ok gv)
    (hgh : schema.readListField st.Attributes "github_release".toList schema.githubFields
      = .ok ghv)
    (hadd : schema.readListField st.Attributes "add_content".toList schema.addContentFields
      = .ok av)
    (hg0 : (getListOfStructs gv).headD [] = []) (hgh0 : (getListOfStructs ghv).headD [] = [])
    (hnone : getListOfStructs av = []) :
    migrateBitsUrl [] [] [] = .ok none ∧
      migrateBitsStateV2toV3 (some st) w = .returned (some st) none [] := by
  refine ⟨rfl, ?_⟩
  unfold migrateBitsStateV2toV3
  dsimp only
  by_cases hE : InstanceState.Empty (some st) = true
  · rw [if_pos hE]
  · rw [if_neg hE]
    simp only [schema.readString]
    rw [hgit, hgh, hadd]
    dsimp only
    rw [hnone, if_neg (by simp), hurl, hg0, hgh0]
    rfl

/-- C15 at a concrete state: the key `url` holds the empty string and the count
keys hold 0; every external call would fail, and none is made. -/
theorem C15_no_source_is_a_no_op_witness :
    migrateBitsUrl [] [] [] = .ok none ∧
      migrateBitsStateV2toV3
          (some { ID := "x".toList,
                  Attributes := [("url".toList, []), ("git.#".toList, "0".toList),
                                 ("github_release.#".toList, "0".toList),
                                 ("name".toList, "n".toList)] })
          { zipperManager := some "no".toList, createSession := fun _ _ => some "no".toList,
            sha1 := .error "no".toList, mkdirAll := fun _ => some "no".toList,
            zip := some "no".toList, create := fun _ => some "no".toList,
            copy := some "no".toList }
        = .returned
            (some { ID := "x".toList,
                    Attributes := [("url".toList, []), ("git.#".toList, "0".toList),
                                   ("github_release.#".toList, "0".toList),
                                   ("name".toList, "n".toList)] })
            none [] :=
  C15_no_source_is_a_no_op _ _ [] [] [] rfl rfl rfl rfl rfl rfl rfl

/-! ## C16: the empty state -/

/-- C16: a state that is nil or has no ID is returned as it is, with no error and
no external call, whatever its attributes hold: no attribute is read. -/
theorem C16_empty_state_is_returned (is : Option InstanceState) (w : World)
    (h : InstanceState.Empty is = true) :
    migrateBitsStateV2toV3 is w = .returned is none [] := by
  unfold migrateBitsStateV2toV3
  cases is with
  | none => rfl
  | some st =>
    dsimp only
    rw [if_pos h]

/-- C16 at two concrete states: the nil state, and a state without ID whose
attributes could not be read (the count `git.#` is negative, the `url` does not
parse, `add_content` is populated). -/
theorem C16_empty_state_is_returned_witness :
    migrateBitsStateV2toV3 none
        { zipperManager := none, createSession := fun _ _ => none, sha1 := .ok "abc".toList,
          mkdirAll := fun _ => none, zip := none, create := fun _ => none, copy := none }
      = .returned none none [] ∧
    migrateBitsStateV2toV3
        (some { ID := [],
                Attributes := [("url".toList, "::".toList), ("git.#".toList, "-1".toList),
                               ("add_content.#".toList, "1".toList),
                               ("add_content.0.source".toList, "a".toList)] })
        { zipperManager := none, createSession := fun _ _ => none, sha1 := .ok "abc".toList,
          mkdirAll := fun _ => none, zip := none, create := fun _ => none, copy := none }
      = .returned
          (some { ID := [],
                  Attributes := [("url".toList, "::".toList), ("git.#".toList, "-1".toList),
                                 ("add_content.#".toList, "1".toList),
                                 ("add_content.0.source".toList, "a".toList)] })
          none [] :=
  ⟨C16_empty_state_is_returned none _ rfl, C16_empty_state_is_returned (some _) _ rfl⟩

/-! ## C17: the output path ends in .zip -/

/-- C17: for every URI with a non-empty path, whatever its host and whatever the
last element of the path, the output path ends in `.zip`. -/
theorem C17_output_ends_in_zip (u : url.URL) (h : u.Path ≠ []) :
    strings.HasSuffix (migrateBitsOutputPath u) ".zip".toList = true := by
  obtain ⟨q, -, hq2, hq3⟩ := migrateBitsOutputPath_form u
  obtain ⟨y, hy⟩ := hq2 h
  rw [hq3, hy]
  generalize (if u.Host = "glare.now.sh".toList then "github.com".toList else u.Host) = host
  by_cases hh : host = []
  · obtain ⟨z, -, hz⟩ := Base_zip y
    rw [if_pos hh, hz]
    exact strings.HasSuffix_append _ _
  · rw [if_neg hh, ← List.append_assoc]
    exact strings.HasSuffix_append _ _

/-- C17 at five concrete URIs: no host, the glare host with last element `zip`,
last element `tar`, a name with several dots, and a path that ends in a
separator. -/
theorem C17_output_ends_in_zip_witness :
    strings.HasSuffix (migrateBitsOutputPath { Path := "dir/app".toList }) ".zip".toList = true ∧
    migrateBitsOutputPath
        { Scheme := "https".toList, Host := "glare.now.sh".toList, Path := "/o/r/zip".toList }
      = "github.com/o/r/archive.zip".toList ∧
    migrateBitsOutputPath
        { Scheme := "https".toList, Host := "example.com".toList, Path := "/o/r/tar".toList }
      = "example.com/o/r/archive.zip".toList ∧
    migrateBitsOutputPath
        { Scheme := "https".toList, Host := "example.com".toList, Path := "/app.tar.gz".toList }
      = "example.com/app.tar.zip".toList ∧
    migrateBitsOutputPath
        { Scheme := "https".toList, Host := "example.com".toList, Path := "/a/b.c/".toList }
      = "example.com/a/b.c/.zip".toList :=
  ⟨C17_output_ends_in_zip { Path := "dir/app".toList } (by decide), by decide, by decide,
    by decide, by decide⟩

/-! ## C18: a release archive with credentials -/

namespace url

theorem unreserved_userinfo :
    ∀ c ∈ unreservedChars, shouldEscape c .encodeUserPassword = false := by
  decide

/-- Go `(*URL).String` on an `https` URL with a user and a password, none of
whose parts needs escaping. -/
theorem String_https_user (host rest user password : Str) (hh : unreserved host)
    (hne : host ≠ []) (hr : ∀ c ∈ rest, c ∈ unreservedChars ∨ c = '/')
    (hu : unreserved user) (hp : unreserved password) :
    URL.String { Scheme := "https".toList, Host := host, Path := '/' :: rest,
                 User := some (UserPassword user password) }
      = "https://".toList ++ user ++ ':' :: password ++ '@' :: host ++ '/' :: rest := by
  have n1 : escape host .encodeHost = host :=
    escape_id host _ (fun c hc => (mem_unreserved_props c (hh c hc)).2.2.2.2.2.2.2.2.2.1)
  have n2 : escape ('/' :: rest) .encodePath = '/' :: rest := by
    apply escape_id
    intro c hc
    rcases List.mem_cons.mp hc with h | h
    · subst h; decide
    · exact (safe_props _ (hr _ h)).2.2.2.2
  have n3 : ∀ (sch : Str) (ui : Option Userinfo), URL.EscapedPath
      { Scheme := sch, Host := host, Path := '/' :: rest, User := ui } = '/' :: rest := by
    intro sch ui
    unfold URL.EscapedPath
    simp [n2]
  have n4 : escape user .encodeUserPassword = user :=
    escape_id user _ (fun c hc => unreserved_userinfo c (hu c hc))
  have n5 : escape password .encodeUserPassword = password :=
    escape_id password _ (fun c hc => unreserved_userinfo c (hp c hc))
  unfold URL.String
  simp [n1, n3, n4, n5, hne, Userinfo.String, UserPassword]

end url

theorem migrateBitsUrl_zipball_user (gh : Attrs) (v o r user password : Str)
    (hv : gh.get "version".toList = some v)
    (hf : gh.get "filename".toList = some "zipball".toList)
    (ho : gh.get "owner".toList = some o) (hr : gh.get "repo".toList = some r)
    (hu : gh.get "user".toList = some user) (hp : gh.get "password".toList = some password)
    (hvne : v ≠ []) (hune : user ≠ [])
    (uv : unreserved v) (uo : unreserved o) (ur : unreserved r) :
    migrateBitsUrl [] [] gh
      = .ok (some
          { Scheme := "https".toList, Host := "github.com".toList,
            Path := '/' :: (o ++ "/".toList ++ r ++ "/archive/".toList ++ v ++ ".zip".toList),
            User := some (url.UserPassword user password) }) := by
  have hne : ¬ gh.length = 0 := by
    intro e
    rw [List.length_eq_zero.mp e] at hv
    exact absurd hv (by simp [Attrs.get])
  have hg : unreserved "github.com".toList := by decide
  have s1 : ∀ c ∈ "/archive/".toList, c ∈ unreservedChars ∨ c = '/' := by decide
  have s2 : ∀ c ∈ ".zip".toList, c ∈ unreservedChars ∨ c = '/' := by decide
  have s5 : ∀ c ∈ "/".toList, c ∈ unreservedChars ∨ c = '/' := by decide
  have so := safe_of_unreserved o uo
  have sr := safe_of_unreserved r ur
  have sv := safe_of_unreserved v uv
  have e : "https://github.com/".toList ++ o ++ "/".toList ++ r ++ "/archive/".toList ++ v
        ++ ".zip".toList
      = "https://".toList ++ "github.com".toList
        ++ '/' :: (o ++ "/".toList ++ r ++ "/archive/".toList ++ v ++ ".zip".toList) := by
    simp
  unfold migrateBitsUrl
  rw [if_neg (by simp), if_neg (by simp), if_neg hne]
  unfold assertString
  rw [hv, hf, ho, hr, hu, hp]
  dsimp only
  rw [if_pos ⟨hvne, rfl⟩, e, url.Parse_https _ _ hg
    (mem_append_safe _ _ (mem_append_safe _ _ (mem_append_safe _ _ (mem_append_safe _ _
      (mem_append_safe _ _ so s5) sr) s1) sv) s2)]
  dsimp only
  rw [if_pos hune]

/-- C18: for a non-empty state with no url, no git block and no add_content
entry, whose release block has a non-empty version `v`, the filename
`zipball`, owner `o`, repo `r`, a non-empty user `U` and a password `P`, all
made of characters that need no escaping, the migration returns without error
and without any external call; the attribute `path` of the result is
`https://U:P@github.com/o/r/archive/v.zip`, credentials included, and the key
`source_code_hash` is as it was in the input. -/
theorem C18_release_zip_keeps_credentials (st : InstanceState) (w : World)
    (gv ghv av : List (Option Attrs)) (gh : Attrs) (v o r U P : Str)
    (hID : st.ID ≠ [])
    (hurl : (st.Attributes.get "url".toList).getD [] = [])
    (hgit : schema.readListField st.Attributes "git".toList schema.gitFields = .ok gv)
    (hg0 : (getListOfStructs gv).headD [] = [])
    (hgh : schema.readListField st.Attributes "github_release".toList schema.githubFields
      = .ok ghv)
    (hgh1 : (getListOfStructs ghv).headD [] = gh)
    (hadd : schema.readListField st.Attributes "add_content".toList schema.addContentFields
      = .ok av)
    (hnone : getListOfStructs av = [])
    (hv : gh.get "version".toList = some v)
    (hf : gh.get "filename".toList = some "zipball".toList)
    (ho : gh.get "owner".toList = some o) (hr : gh.get "repo".toList = some r)
    (hu : gh.get "user".toList = some U) (hp : gh.get "password".toList = some P)
    (hvne : v ≠ []) (hune : U ≠ [])
    (uv : unreserved v) (uo : unreserved o) (ur : unreserved r)
    (uU : unreserved U) (uP : unreserved P) :
    ∃ s', migrateBitsStateV2toV3 (some st) w = .returned (some s') none [] ∧
      s'.Attributes.get "path".toList
        = some ("https://".toList ++ U ++ ":".toList ++ P ++ "@github.com/".toList ++ o ++
            "/".toList ++ r ++ "/archive/".toList ++ v ++ ".zip".toList) ∧
      s'.Attributes.get "source_code_hash".toList
        = st.Attributes.get "source_code_hash".toList := by
  have hE : ¬ InstanceState.Empty (some st) = true := by
    simpa [InstanceState.Empty] using hID
  have hg : unreserved "github.com".toList := by decide
  have s1 : ∀ c ∈ "/archive/".toList, c ∈ unreservedChars ∨ c = '/' := by decide
  have s2 : ∀ c ∈ ".zip".toList, c ∈ unreservedChars ∨ c = '/' := by decide
  have s5 : ∀ c ∈ "/".toList, c ∈ unreservedChars ∨ c = '/' := by decide
  have hrest := mem_append_safe _ _ (mem_append_safe _ _ (mem_append_safe _ _
    (mem_append_safe _ _ (mem_append_safe _ _ (safe_of_unreserved o uo) s5)
      (safe_of_unreserved r ur)) s1) (safe_of_unreserved v uv)) s2
  have hstr := url.String_https_user "github.com".toList _ U P hg (by decide) hrest uU uP
  have hext : filepath.Ext
      ('/' :: (o ++ "/".toList ++ r ++ "/archive/".toList ++ v ++ ".zip".toList))
      = ".zip".toList := by
    rw [← List.cons_append]
    exact filepath.Ext_append_zip _
  have hres := migrateBitsUrl_zipball_user gh v o r U P hv hf ho hr hu hp hvne hune uv uo ur
  have hrun : migrateBitsStateV2toV3 (some st) w
      = .returned
          (some ⟨st.ID, migrateBitsDeleteAttr
            (Attrs.set st.Attributes "path".toList
              (url.URL.String
                { Scheme := "https".toList, Host := "github.com".toList,
                  Path := '/' :: (o ++ "/".toList ++ r ++ "/archive/".toList ++ v
                    ++ ".zip".toList),
                  User := some (url.UserPassword U P) }))⟩)
          none [] := by
    unfold migrateBitsStateV2toV3
    dsimp only
    rw [if_neg hE]
    simp only [schema.readString]
    rw [hgit, hgh, hadd]
    dsimp only
    rw [hnone, if_neg (by simp), hurl, hg0, hgh1, hres]
    dsimp only
    rw [if_pos ⟨Or.inr rfl, hext⟩]
  refine ⟨_, hrun, ?_, ?_⟩
  · show Attrs.get (migrateBitsDeleteAttr _) _ = _
    rw [get_migrateBitsDeleteAttr, if_neg (by decide), Attrs.get_set, if_pos rfl, hstr]
    simp
  · show Attrs.get (migrateBitsDeleteAttr _) _ = _
    rw [get_migrateBitsDeleteAttr, if_neg (by decide), Attrs.get_set, if_neg (by decide)]

/-- C18 at a concrete state: the release `v1.0` of `o/r` as a zipball, with the
user `bob` and the password `secret`; every external call would fail, and none
is made. -/
theorem C18_release_zip_keeps_credentials_witness :
    ∃ s', migrateBitsStateV2toV3
        (some { ID := "x".toList,
                Attributes := [("github_release.#".toList, "1".toList),
                               ("github_release.0.owner".toList, "o".toList),
                               ("github_release.0.repo".toList, "r".toList),
                               ("github_release.0.user".toList, "bob".toList),
                               ("github_release.0.password".toList, "secret".toList),
                               ("github_release.0.version".toList, "v1.0".toList),
                               ("github_release.0.filename".toList, "zipball".toList)] })
        { zipperManager := some "no".toList, createSession := fun _ _ => some "no".toList,
          sha1 := .error "no".toList, mkdirAll := fun _ => some "no".toList,
          zip := some "no".toList, create := fun _ => some "no".toList,
          copy := some "no".toList }
        = .returned (some s') none [] ∧
      s'.Attributes.get "path".toList
        = some ("https://".toList ++ "bob".toList ++ ":".toList ++ "secret".toList ++
            "@github.com/".toList ++ "o".toList ++ "/".toList ++ "r".toList ++
            "/archive/".toList ++ "v1.0".toList ++ ".zip".toList) ∧
      s'.Attributes.get "source_code_hash".toList
        = Attrs.get [("github_release.#".toList, "1".toList),
                     ("github_release.0.owner".toList, "o".toList),
                     ("github_release.0.repo".toList, "r".toList),
                     ("github_release.0.user".toList, "bob".toList),
                     ("github_release.0.password".toList, "secret".toList),
                     ("github_release.0.version".toList, "v1.0".toList),
                     ("github_release.0.filename".toList, "zipball".toList)]
            "source_code_hash".toList :=
  C18_release_zip_keeps_credentials
    { ID := "x".toList,
      Attributes := [("github_release.#".toList, "1".toList),
                     ("github_release.0.owner".toList, "o".toList),
                     ("github_release.0.repo".toList, "r".toList),
                     ("github_release.0.user".toList, "bob".toList),
                     ("github_release.0.password".toList, "secret".toList),
                     ("github_release.0.version".toList, "v1.0".toList),
                     ("github_release.0.filename".toList, "zipball".toList)] }
    { zipperManager := some "no".toList, createSession := fun _ _ => some "no".toList,
      sha1 := .error "no".toList, mkdirAll := fun _ => some "no".toList,
      zip := some "no".toList, create := fun _ => some "no".toList,
      copy := some "no".toList }
    []
    [some [("owner".toList, "o".toList), ("repo".toList, "r".toList),
           ("user".toList, "bob".toList), ("password".toList, "secret".toList),
           ("version".toList, "v1.0".toList), ("filename".toList, "zipball".toList)]]
    []
    [("owner".toList, "o".toList), ("repo".toList, "r".toList),
     ("user".toList, "bob".toList), ("password".toList, "secret".toList),
     ("version".toList, "v1.0".toList), ("filename".toList, "zipball".toList)]
    "v1.0".toList "o".toList "r".toList "bob".toList "secret".toList
    (by decide) rfl rfl rfl rfl rfl rfl rfl rfl rfl rfl rfl rfl rfl (by decide) (by decide)
    (by decide) (by decide) (by decide) (by decide) (by decide)

end MigrateBits
